import Mathlib

/-!
Verification development for the document-search program `DocSearch.py`.

The program indexes a newline-delimited corpus and answers whitespace-split
queries: it builds per-document term-frequency dictionaries, merges them into
a corpus dictionary whose key order fixes the vector dimensions, builds an
inverted index (term -> ascending list of containing document IDs) by
partitioning the vocabulary into per-worker chunks, filters query candidates
by intersecting postings lists, and ranks candidates by the cosine angle
between term-frequency vectors.

Python dictionaries are modelled as insertion-ordered association lists
(`List (α × β)`, one entry per key): assignment to an existing key updates
the entry in place, assignment to a fresh key appends.  Python's `round`
(round half to even on the exact value) is modelled exactly on `ℚ`, with an
equivalent executable integer form used inside the definitions; the worker
count `cpu_count()` is a parameter `W`.  NumPy float angle values are
represented exactly by the pair (dot product, product of squared norms) in
`AngleVal`: the float the program stores is `degrees(arccos(dot/sqrt nsp))`,
which is NaN precisely when `nsp = 0` (a 0/0 division).
-/

/-- Python dict assignment `d[k] = v`: replaces the entry of `k` in place if
present (association lists here hold at most one entry per key), otherwise
appends a new entry, as CPython's insertion-ordered dicts do. -/
def alistSet {α β : Type} [DecidableEq α] : List (α × β) → α → β → List (α × β)
  | [], k, v => [(k, v)]
  | p :: ps, k, v => if p.1 = k then (k, v) :: ps else p :: alistSet ps k v

/-- Python dict lookup `d[k]` / `k in d`: the value of the first entry with
key `k`, if any. -/
def alistGet {α β : Type} [DecidableEq α] : List (α × β) → α → Option β
  | [], _ => none
  | p :: ps, k => if p.1 = k then some p.2 else alistGet ps k

/-- The key list of a dict, in insertion order (`for k in d`). -/
def alistKeys {α β : Type} (d : List (α × β)) : List α := d.map Prod.fst

/-- Splits a character list at every whitespace character, keeping empty
pieces (helper for `pySplit`). -/
def splitWsAux : List Char → List Char → List String
  | [], acc => [String.mk acc.reverse]
  | c :: cs, acc =>
    if c.isWhitespace then String.mk acc.reverse :: splitWsAux cs []
    else splitWsAux cs (c :: acc)

/-- Python `str.split()` with no argument: split on runs of whitespace,
discarding empty pieces. -/
def pySplit (s : String) : List String :=
  (splitWsAux s.toList []).filter (fun t => t ≠ "")

/-- Splits a character list at every newline character (helper for
`pySplitlines`). -/
def splitNlAux : List Char → List Char → List String
  | [], acc => [String.mk acc.reverse]
  | c :: cs, acc =>
    if c = '\n' then String.mk acc.reverse :: splitNlAux cs []
    else splitNlAux cs (c :: acc)

/-- Python `str.splitlines()` for `\n`-separated text: like splitting on
`"\n"`, except that the empty string yields no lines and a trailing newline
does not produce a final empty line. -/
def pySplitlines (s : String) : List String :=
  if s = "" then []
  else
    let parts := splitNlAux s.toList []
    if parts.getLast? = some "" then parts.dropLast else parts

/-- `build_doc_dict` (DocSearch.py:29-44): for each word of the document, if
it is not yet a key, store `doc.count(word)`, the number of literal
occurrences of the word in the whole token list. -/
def build_doc_dict (doc : List String) : List (String × ℕ) :=
  doc.foldl (fun output word =>
    if (alistGet output word).isSome then output
    else alistSet output word (doc.count word)) []

/-- `build_corpus_dict` (DocSearch.py:47-66): merge the per-document
dictionaries, summing counts; a word's position in the result is fixed by its
first occurrence (CPython dict insertion order). -/
def build_corpus_dict (docs : List (List (String × ℕ))) : List (String × ℕ) :=
  docs.foldl (fun output doc =>
    doc.foldl (fun out p =>
      match alistGet out p.1 with
      | some c => alistSet out p.1 (c + p.2)
      | none => alistSet out p.1 p.2) output) []

/-- `build_doc_dicts` (DocSearch.py:286-302): split the corpus text into
lines, build a dictionary per line, and prepend an empty sentinel dictionary
so that real documents are indexed from 1. -/
def build_doc_dicts (docs : String) : List (List (String × ℕ)) :=
  [] :: (pySplitlines docs).map (fun line => build_doc_dict (pySplit line))

/-- Python `round` on the exact rational value of its argument: round to the
nearest integer, halves to the even neighbour (CPython rounds floats half
to even; the chunk-boundary arguments below are exactly representable
whenever they decide a boundary, so the exact rational is the faithful
model). -/
def pyRound (x : ℚ) : ℤ :=
  if x - ⌊x⌋ = 1/2 then (if ⌊x⌋ % 2 = 0 then ⌊x⌋ else ⌊x⌋ + 1)
  else ⌊x + 1/2⌋

/-- Executable form of `pyRound` on the fraction `a / b` (for `b > 0`):
integer floor division plus a half-to-even test on the remainder.
`pyRoundFrac_eq_pyRound` proves it equal to `pyRound (a / b)`. -/
def pyRoundFrac (a b : ℤ) : ℤ :=
  if 2 * (a - b * Int.fdiv a b) < b then Int.fdiv a b
  else if b < 2 * (a - b * Int.fdiv a b) then Int.fdiv a b + 1
  else if Int.fdiv a b % 2 = 0 then Int.fdiv a b else Int.fdiv a b + 1

/-- `start_index = round((i * (L / W)) - 0.5)` — the chunk-boundary formula
shared verbatim by `build_inverted_index` (DocSearch.py:115) and
`process_query` (DocSearch.py:239), with `L` the item count and `W` the
worker count (`cpu_count()`); here `i*(L/W) - 1/2 = (2iL - W)/(2W)`.
`chunkStart_eq_pyRound` proves this equals `pyRound` of the source's
expression. -/
def chunkStart (L W : ℕ) (i : ℕ) : ℤ :=
  pyRoundFrac (2 * (i : ℤ) * (L : ℤ) - (W : ℤ)) (2 * (W : ℤ))

/-- `end_index = round((start_index + (L / W)) + 0.5)` (DocSearch.py:116 and
DocSearch.py:240); here `s + L/W + 1/2 = (2sW + 2L + W)/(2W)`.
`chunkEnd_eq_pyRound` proves this equals `pyRound` of the source's
expression. -/
def chunkEnd (L W : ℕ) (i : ℕ) : ℤ :=
  pyRoundFrac (2 * chunkStart L W i * (W : ℤ) + 2 * (L : ℤ) + (W : ℤ)) (2 * (W : ℤ))

/-- Python slice `l[s:e]` for the (provably nonnegative) chunk bounds:
clamped to the list length. -/
def pySlice {α : Type} (l : List α) (s e : ℤ) : List α :=
  (l.take e.toNat).drop s.toNat

/-- The postings list a worker computes for one word
(DocSearch.py:78-86 inner loop): scan documents `0..N-1` in order and record
the IDs of documents whose dictionary contains the word. -/
def postingList (word : String) (docs : List (List (String × ℕ))) : List ℕ :=
  (List.range docs.length).filter (fun i => (alistGet (docs.getD i []) word).isSome)

/-- One worker's loop shape: build a dict mapping each item of its chunk `l`
to `f` of that item (for the index build, `f` is `postingList · docs`). -/
def buildFor {α β : Type} [DecidableEq α] (f : α → β) (l : List α) : List (α × β) :=
  l.foldl (fun acc k => alistSet acc k (f k)) []

/-- `build_index_for` (DocSearch.py:69-88): the partial inverted index for a
word list. -/
def build_index_for (word_list : List String) (docs : List (List (String × ℕ))) :
    List (String × List ℕ) :=
  buildFor (fun w => postingList w docs) word_list

/-- The merge loop `for word in partial_index: inverted_index[word] = ...`
(DocSearch.py:125-126, and the analogous angle-dict merge at
DocSearch.py:254-255). -/
def mergeInto {α β : Type} [DecidableEq α] (inv ps : List (α × β)) : List (α × β) :=
  ps.foldl (fun acc p => alistSet acc p.1 p.2) inv

/-- The shared fan-out/fan-in shape of DocSearch.py:113-126 and
DocSearch.py:237-255: for each worker `i < W`, slice the item list with the
chunk-boundary formula, have the worker map its chunk through `f`, and merge
the worker dicts in order. -/
def chunkedBuild {α β : Type} [DecidableEq α] (l : List α) (W : ℕ) (f : α → β) :
    List (α × β) :=
  (List.range W).foldl (fun inv i =>
    mergeInto inv (buildFor f (pySlice l (chunkStart l.length W i) (chunkEnd l.length W i)))) []

/-- `build_inverted_index` (DocSearch.py:91-132): chunk the corpus
dictionary's key list over `W` workers (`W` models `cpu_count()`), each
worker builds `build_index_for` for its chunk, and the partial indices are
merged in worker order. -/
def build_inverted_index (docs : List (List (String × ℕ))) (corpus_dict : List (String × ℕ))
    (W : ℕ) : List (String × List ℕ) :=
  chunkedBuild (alistKeys corpus_dict) W (fun w => postingList w docs)

/-- `build_vector` (DocSearch.py:137-153): for each word of the index in key
order, append the document's count of that word, `0` on `KeyError`. -/
def build_vector (doc : List (String × ℕ)) (inverted_index : List (String × List ℕ)) :
    List ℕ :=
  (alistKeys inverted_index).foldl (fun temp_list word =>
    temp_list ++ [match alistGet doc word with
      | some c => c
      | none => 0]) []

/-- `np.dot` of two equal-length count vectors. -/
def dotProduct (v w : List ℕ) : ℕ :=
  ((v.zip w).map (fun p => p.1 * p.2)).sum

/-- The squared Euclidean norm; the program's `np.linalg.norm` is its square
root. -/
def normSq (v : List ℕ) : ℕ := dotProduct v v

/-- The exact data determining one stored angle value
`math.degrees(np.arccos(dot_product / (norm * query_norm)))`
(DocSearch.py:176-183): `dot` is the dot product and `nsp` the product of
the two squared norms, so `norm * query_norm = sqrt nsp`.  The float the
program stores is NaN exactly when `nsp = 0` (the division is then `0/0`,
since a zero norm forces a zero vector and hence a zero dot product). -/
structure AngleVal where
  dot : ℕ
  nsp : ℕ
deriving DecidableEq, Repr

/-- The stored float is NaN iff the norm product is zero. -/
def AngleVal.isNaN (a : AngleVal) : Bool := a.nsp = 0

/-- Float `<` on two stored angle values: false if either is NaN; otherwise
`angle a < angle b` iff `cos a > cos b` iff `a.dot/√a.nsp > b.dot/√b.nsp`
iff `a.dot² · b.nsp > b.dot² · a.nsp` (arccos is strictly antitone and both
cosines are nonnegative).  `ltB_iff_degrees_lt` below proves this matches
the real-valued angle order. -/
def AngleVal.ltB (a b : AngleVal) : Bool :=
  !a.isNaN && !b.isNaN && decide (b.dot ^ 2 * a.nsp < a.dot ^ 2 * b.nsp)

/-- Float `==` on two stored angle values: false if either is NaN (NaN is
not equal to anything); otherwise equality of the cosines. -/
def AngleVal.feqB (a b : AngleVal) : Bool :=
  !a.isNaN && !b.isNaN && decide (a.dot ^ 2 * b.nsp = b.dot ^ 2 * a.nsp)

/-- The real angle value in degrees represented by an `AngleVal` (defined
when `nsp ≠ 0`). -/
noncomputable def AngleVal.degreesVal (a : AngleVal) : ℝ :=
  Real.arccos ((a.dot : ℝ) / Real.sqrt (a.nsp : ℝ)) * 180 / Real.pi

/-- The angle entry `calc_angles` computes for one document
(DocSearch.py:166-186): build the query vector and the document vector over
the index's key order and form dot product and norms. -/
def angleEntry (docs : List (List (String × ℕ))) (inverted_index : List (String × List ℕ))
    (query : String) (docID : ℕ) : AngleVal :=
  let query_vector := build_vector (build_doc_dict (pySplit query)) inverted_index
  let vector := build_vector (docs.getD docID []) inverted_index
  { dot := dotProduct vector query_vector
    nsp := normSq vector * normSq query_vector }

/-- `calc_angles` (DocSearch.py:158-189): one worker's angle dict for its
chunk of candidate document IDs, keyed in chunk order. -/
def calc_angles (relevant_docs : List ℕ) (docs : List (List (String × ℕ)))
    (inverted_index : List (String × List ℕ)) (query : String) : List (ℕ × AngleVal) :=
  buildFor (angleEntry docs inverted_index query) relevant_docs

/-- The candidate-filter loop of `process_query` (DocSearch.py:210-218):
starting from the set of all document IDs, intersect with each query word's
postings list.  A word absent from the index raises `KeyError`, which the
`except NameError` handler cannot catch (`KeyError` is not a subclass of
`NameError`), so the exception propagates — the `Except.error` branch. -/
def relevant_docs_set (query_split : List String) (inverted_index : List (String × List ℕ))
    (s : Finset ℕ) : Except String (Finset ℕ) :=
  match query_split with
  | [] => .ok s
  | word :: rest =>
    match alistGet inverted_index word with
    | some lw => relevant_docs_set rest inverted_index (s ∩ lw.toFinset)
    | none => .error "KeyError"

/-- Decidable equality for `Except`, so candidate-set results can be checked
by `decide`. -/
instance exceptDecEq {ε α : Type} [DecidableEq ε] [DecidableEq α] :
    DecidableEq (Except ε α)
  | .ok x, .ok y =>
    if h : x = y then isTrue (by rw [h])
    else isFalse (by intro hc; injection hc; contradiction)
  | .ok _, .error _ => isFalse (fun hc => Except.noConfusion hc)
  | .error _, .ok _ => isFalse (fun hc => Except.noConfusion hc)
  | .error e, .error f =>
    if h : e = f then isTrue (by rw [h])
    else isFalse (by intro hc; injection hc; contradiction)

/-- Python's stable insertion of `x` into `l`: place `x` before the first
element `y` with `le x y`. -/
def insertLe {α : Type} (le : α → α → Bool) (x : α) : List α → List α
  | [] => [x]
  | y :: ys => if le x y then x :: y :: ys else y :: insertLe le x ys

/-- A stable sort by the boolean comparator `le`, modelling Python's stable
`sorted`.  (Python's Timsort and this insertion sort agree on every list
whose comparator restricts to a total preorder on the list's elements,
which holds for every list the program sorts: the angle values of one query
are either all NaN or all non-NaN.) -/
def sortLe {α : Type} (le : α → α → Bool) : List α → List α
  | [] => []
  | x :: xs => insertLe le x (sortLe le xs)

/-- The comparator under `sorted(angle_dict, key=angle_dict.__getitem__)`
(DocSearch.py:259): ascending float angle, an element staying left of a
later element unless that one's angle is strictly smaller. -/
def rankLe (p q : ℕ × AngleVal) : Bool := !(AngleVal.ltB q.2 p.2)

/-- The index `main` builds (DocSearch.py:306-312): corpus text → document
dictionaries → corpus dictionary → inverted index over `W` workers. -/
def mainIndex (text : String) (W : ℕ) : List (String × List ℕ) :=
  build_inverted_index (build_doc_dicts text) (build_corpus_dict (build_doc_dicts text)) W

/-- The candidate set `process_query` computes for a query against the index
built by `main` (DocSearch.py:206-218): start from all document IDs and run
the intersection loop. -/
def mainCandidates (text query : String) (W : ℕ) : Except String (Finset ℕ) :=
  relevant_docs_set (pySplit query) (mainIndex text W)
    (Finset.range (build_doc_dicts text).length)

/-- The ranking part of `process_query` (DocSearch.py:203-260): tokenize the
query, run the candidate filter, convert the candidate set to a list
(`relevant_docs = list(relevant_docs)`, DocSearch.py:232 — CPython set
iteration order is unspecified, so the enumeration `enum` is a parameter;
theorems constrain it to enumerate the candidate set without duplicates),
chunk it over `W` workers with the shared boundary formula, merge the
workers' angle dicts in order, and sort stably by ascending angle.  If the
candidate filter raises (unseen term), nothing is emitted. -/
def processQueryRanking (text query : String) (W : ℕ) (enum : List ℕ) :
    List (ℕ × AngleVal) :=
  match mainCandidates text query W with
  | .error _ => []
  | .ok _ => sortLe rankLe (chunkedBuild enum W
      (angleEntry (build_doc_dicts text) (mainIndex text W) query))

/-- Modelled from the spec's wording (§2, §4.2): the vocabulary enumeration
order is "first-seen order across documents in scan order" — fold over the
token stream keeping each term's first occurrence.  Used only to state C8's
order property, for comparison with the key order the code produces. -/
def firstSeenOrder (ws : List String) : List String :=
  ws.foldl (fun acc w => if w ∈ acc then acc else acc ++ [w]) []

/-- The words of `ws` not already in `acc`, first occurrences only, in
order (the suffix `firstSeenOrder`-style folds append; proof helper). -/
def fsNew (acc : List String) : List String → List String
  | [] => []
  | w :: ws => if w ∈ acc then fsNew acc ws else w :: fsNew (acc ++ [w]) ws

/-! ### Properties of `pyRound` and the chunk boundaries -/

theorem le_pyRound (x : ℚ) : x - 1/2 ≤ (pyRound x : ℚ) := by
  unfold pyRound
  by_cases h : x - ⌊x⌋ = 1/2
  · rw [if_pos h]
    by_cases h2 : ⌊x⌋ % 2 = 0
    · rw [if_pos h2]; linarith
    · rw [if_neg h2]; push_cast; linarith
  · rw [if_neg h]
    have := Int.sub_one_lt_floor (x + 1/2)
    linarith

theorem pyRound_le (x : ℚ) : (pyRound x : ℚ) ≤ x + 1/2 := by
  unfold pyRound
  by_cases h : x - ⌊x⌋ = 1/2
  · rw [if_pos h]
    by_cases h2 : ⌊x⌋ % 2 = 0
    · rw [if_pos h2]; linarith
    · rw [if_neg h2]; push_cast; linarith
  · rw [if_neg h]
    have := Int.floor_le (x + 1/2)
    linarith

theorem pyRound_add_half (n : ℤ) :
    pyRound ((n : ℚ) + 1/2) = if n % 2 = 0 then n else n + 1 := by
  have hfl : ⌊(n : ℚ) + 1/2⌋ = n := by
    rw [add_comm, Int.floor_add_int]
    norm_num
  unfold pyRound
  rw [hfl, if_pos (by push_cast; ring)]

theorem pyRoundFrac_eq_pyRound (a b : ℤ) (hb : 0 < b) :
    pyRoundFrac a b = pyRound ((a : ℚ) / (b : ℚ)) := by
  have hbQ : (0 : ℚ) < (b : ℚ) := by exact_mod_cast hb
  have hbne : (b : ℚ) ≠ 0 := ne_of_gt hbQ
  unfold pyRoundFrac pyRound
  set q : ℤ := Int.fdiv a b with hq
  set r : ℤ := a - b * q with hrdef
  have hrfmod : r = Int.fmod a b := by
    rw [hrdef, hq, Int.fmod_def]
  have hr0 : 0 ≤ r := by rw [hrfmod]; exact Int.fmod_nonneg' a hb
  have hrb : r < b := by rw [hrfmod]; exact Int.fmod_lt_of_pos a hb
  have hx : (a : ℚ) / (b : ℚ) = (q : ℚ) + (r : ℚ) / (b : ℚ) := by
    rw [hrdef]
    field_simp
    push_cast
    ring
  have hr0Q : (0 : ℚ) ≤ (r : ℚ) := by exact_mod_cast hr0
  have hrbQ : (r : ℚ) < (b : ℚ) := by exact_mod_cast hrb
  have hdiv0 : (0 : ℚ) ≤ (r : ℚ) / (b : ℚ) := div_nonneg hr0Q (le_of_lt hbQ)
  have hdiv1 : (r : ℚ) / (b : ℚ) < 1 := (div_lt_one hbQ).mpr hrbQ
  have hfl : ⌊(a : ℚ) / (b : ℚ)⌋ = q := by
    rw [Int.floor_eq_iff, hx]
    constructor
    · linarith
    · push_cast; linarith
  have hsub : (a : ℚ) / (b : ℚ) - (q : ℚ) = (r : ℚ) / (b : ℚ) := by
    rw [hx]; ring
  rw [hfl, hsub]
  by_cases h1 : 2 * r < b
  · have hlt : (r : ℚ) / (b : ℚ) < 1/2 := by
      rw [div_lt_div_iff hbQ (by norm_num : (0:ℚ) < 2)]
      have h2r : (2 : ℚ) * (r : ℚ) < (b : ℚ) := by exact_mod_cast h1
      linarith
    rw [if_pos h1, if_neg (by linarith)]
    symm
    rw [hx, Int.floor_eq_iff]
    constructor
    · linarith
    · push_cast; linarith
  · by_cases h2 : b < 2 * r
    · have hgt : 1/2 < (r : ℚ) / (b : ℚ) := by
        rw [lt_div_iff hbQ]
        have h2r : (b : ℚ) < 2 * (r : ℚ) := by exact_mod_cast h2
        linarith
      rw [if_neg h1, if_pos h2, if_neg (by linarith)]
      symm
      rw [hx, Int.floor_eq_iff]
      constructor
      · push_cast; linarith
      · push_cast; linarith
    · have heq : 2 * r = b := by omega
      have hhalf : (r : ℚ) / (b : ℚ) = 1/2 := by
        rw [div_eq_div_iff hbne (by norm_num : (2:ℚ) ≠ 0)]
        have h2r : (2 : ℚ) * (r : ℚ) = (b : ℚ) := by exact_mod_cast heq
        linarith
      rw [if_neg h1, if_neg h2, if_pos hhalf]

theorem chunkStart_eq_pyRound (L W i : ℕ) (hW : 0 < W) :
    chunkStart L W i = pyRound ((i : ℚ) * ((L : ℚ) / (W : ℚ)) - 1/2) := by
  have hWQ : ((W : ℚ)) ≠ 0 := by
    exact_mod_cast Nat.pos_iff_ne_zero.mp hW
  have hb : (0 : ℤ) < 2 * (W : ℤ) := by positivity
  rw [chunkStart, pyRoundFrac_eq_pyRound _ _ hb]
  congr 1
  push_cast
  field_simp
  ring

theorem chunkEnd_eq_pyRound (L W i : ℕ) (hW : 0 < W) :
    chunkEnd L W i = pyRound ((chunkStart L W i : ℚ) + (L : ℚ) / (W : ℚ) + 1/2) := by
  have hWQ : ((W : ℚ)) ≠ 0 := by
    exact_mod_cast Nat.pos_iff_ne_zero.mp hW
  have hb : (0 : ℤ) < 2 * (W : ℤ) := by positivity
  rw [chunkEnd, pyRoundFrac_eq_pyRound _ _ hb]
  congr 1
  push_cast
  field_simp
  ring

theorem chunkStart_zero (L W : ℕ) (hW : 0 < W) : chunkStart L W 0 = 0 := by
  rw [chunkStart_eq_pyRound L W 0 hW]
  have harg : ((0:ℕ) : ℚ) * ((L:ℚ)/(W:ℚ)) - 1/2 = ((-1 : ℤ) : ℚ) + 1/2 := by
    push_cast
    ring
  rw [harg, pyRound_add_half, if_neg (by decide)]
  decide

theorem chunkStart_nonneg (L W i : ℕ) (hW : 0 < W) : 0 ≤ chunkStart L W i := by
  have hq0 : (0:ℚ) ≤ (i:ℚ) * ((L:ℚ)/(W:ℚ)) := by positivity
  rcases eq_or_lt_of_le hq0 with h | h
  · have harg : (i:ℚ) * ((L:ℚ)/(W:ℚ)) - 1/2 = ((-1 : ℤ) : ℚ) + 1/2 := by
      rw [← h]
      push_cast
      ring
    rw [chunkStart_eq_pyRound L W i hW, harg, pyRound_add_half, if_neg (by decide)]
    decide
  · have hlow := le_pyRound ((i:ℚ) * ((L:ℚ)/(W:ℚ)) - 1/2)
    rw [← chunkStart_eq_pyRound L W i hW] at hlow
    have h1 : (-1 : ℚ) < (chunkStart L W i : ℚ) := by linarith
    have h2 : (-1 : ℤ) < chunkStart L W i := by exact_mod_cast h1
    omega

theorem chunkStart_le_chunkEnd (L W i : ℕ) (hW : 0 < W) :
    chunkStart L W i ≤ chunkEnd L W i := by
  have hq0 : (0:ℚ) ≤ (L:ℚ)/(W:ℚ) := by positivity
  have hel := le_pyRound ((chunkStart L W i : ℚ) + (L:ℚ)/(W:ℚ) + 1/2)
  rw [← chunkEnd_eq_pyRound L W i hW] at hel
  have h1 : (chunkStart L W i : ℚ) ≤ (chunkEnd L W i : ℚ) := by linarith
  exact_mod_cast h1

theorem chunkEnd_nonneg (L W i : ℕ) (hW : 0 < W) : 0 ≤ chunkEnd L W i :=
  le_trans (chunkStart_nonneg L W i hW) (chunkStart_le_chunkEnd L W i hW)

theorem chunkStart_le_length (L W i : ℕ) (hW : 0 < W) (hi : i ≤ W) :
    chunkStart L W i ≤ (L : ℤ) := by
  have hWQ : ((W : ℚ)) ≠ 0 := by
    exact_mod_cast Nat.pos_iff_ne_zero.mp hW
  have hsu := pyRound_le ((i:ℚ) * ((L:ℚ)/(W:ℚ)) - 1/2)
  rw [← chunkStart_eq_pyRound L W i hW] at hsu
  have hWq : (W:ℚ) * ((L:ℚ)/(W:ℚ)) = (L:ℚ) := by field_simp
  have hiq : (i:ℚ) * ((L:ℚ)/(W:ℚ)) ≤ (W:ℚ) * ((L:ℚ)/(W:ℚ)) := by
    apply mul_le_mul_of_nonneg_right _ (by positivity)
    exact_mod_cast hi
  have h1 : (chunkStart L W i : ℚ) ≤ (L:ℚ) := by linarith
  exact_mod_cast h1

/-- No gap between consecutive chunks: each chunk's start is at most the
previous chunk's end. -/
theorem chunkStart_succ_le_chunkEnd (L W i : ℕ) (hW : 0 < W) :
    chunkStart L W (i + 1) ≤ chunkEnd L W i := by
  by_contra hcon
  push_neg at hcon
  have hq0 : (0:ℚ) ≤ (L:ℚ)/(W:ℚ) := by positivity
  have hs'def := chunkStart_eq_pyRound L W (i+1) hW
  have hsdef := chunkStart_eq_pyRound L W i hW
  have hedef := chunkEnd_eq_pyRound L W i hW
  have hs'u : (chunkStart L W (i+1) : ℚ) ≤ ((i:ℚ)+1) * ((L:ℚ)/(W:ℚ)) := by
    have h := pyRound_le (((i+1:ℕ):ℚ) * ((L:ℚ)/(W:ℚ)) - 1/2)
    rw [← hs'def] at h
    push_cast at h
    linarith
  have hsl : (i:ℚ) * ((L:ℚ)/(W:ℚ)) - 1 ≤ (chunkStart L W i : ℚ) := by
    have h := le_pyRound ((i:ℚ) * ((L:ℚ)/(W:ℚ)) - 1/2)
    rw [← hsdef] at h
    linarith
  have hel : (chunkStart L W i : ℚ) + (L:ℚ)/(W:ℚ) ≤ (chunkEnd L W i : ℚ) := by
    have h := le_pyRound ((chunkStart L W i : ℚ) + (L:ℚ)/(W:ℚ) + 1/2)
    rw [← hedef] at h
    linarith
  have hes' : (chunkEnd L W i : ℚ) + 1 ≤ (chunkStart L W (i+1) : ℚ) := by
    have h : chunkEnd L W i + 1 ≤ chunkStart L W (i+1) := Int.add_one_le_iff.mpr hcon
    exact_mod_cast h
  -- the end and the next start are forced onto consecutive integers around
  -- (i+1) * (L/W), so (i+1) * (L/W) is the integer chunkEnd + 1
  have he_eq : (chunkEnd L W i : ℚ) = ((i:ℚ)+1) * ((L:ℚ)/(W:ℚ)) - 1 := by
    linarith [mul_one ((L:ℚ)/(W:ℚ))]
  have hs'_eq : (chunkStart L W (i+1) : ℚ) = ((i:ℚ)+1) * ((L:ℚ)/(W:ℚ)) := by
    linarith
  have hm : ((chunkEnd L W i + 1 : ℤ) : ℚ) = ((i:ℚ)+1) * ((L:ℚ)/(W:ℚ)) := by
    push_cast
    linarith
  have hs'm : chunkStart L W (i+1) = chunkEnd L W i + 1 := by
    have h1 : (chunkStart L W (i+1) : ℚ) = ((chunkEnd L W i + 1 : ℤ) : ℚ) := by
      rw [hm, hs'_eq]
    exact_mod_cast h1
  -- evaluate the next start with the half-to-even rule
  have harg1 : ((i+1:ℕ):ℚ) * ((L:ℚ)/(W:ℚ)) - 1/2 =
      ((chunkEnd L W i : ℤ) : ℚ) + 1/2 := by
    push_cast
    push_cast at hm
    linarith
  rw [harg1, pyRound_add_half] at hs'def
  have hodd : ¬(chunkEnd L W i % 2 = 0) := by
    intro heven
    rw [if_pos heven] at hs'def
    omega
  rw [if_neg hodd] at hs'def
  -- the previous start is forced to i * (L/W) - 1 exactly
  have hs_eq : (chunkStart L W i : ℚ) = (i:ℚ) * ((L:ℚ)/(W:ℚ)) - 1 := by
    have hsu2 : (chunkStart L W i : ℚ) + (L:ℚ)/(W:ℚ) ≤ ((i:ℚ)+1) * ((L:ℚ)/(W:ℚ)) - 1 := by
      rw [← he_eq]; exact hel
    have := mul_one ((L:ℚ)/(W:ℚ))
    nlinarith [hsl, hsu2]
  -- evaluate the end with the half-to-even rule: it must round up, contradiction
  have harg2 : (chunkStart L W i : ℚ) + (L:ℚ)/(W:ℚ) + 1/2 =
      ((chunkEnd L W i : ℤ) : ℚ) + 1/2 := by
    rw [hs_eq, he_eq]
    ring
  rw [harg2, pyRound_add_half, if_neg hodd] at hedef
  omega

/-- The last chunk's end reaches the length of the item list. -/
theorem le_chunkEnd_last (L W : ℕ) (hW : 0 < W) : (L : ℤ) ≤ chunkEnd L W (W - 1) := by
  by_contra hcon
  push_neg at hcon
  have hWQ : ((W : ℚ)) ≠ 0 := by
    exact_mod_cast Nat.pos_iff_ne_zero.mp hW
  have hq0 : (0:ℚ) ≤ (L:ℚ)/(W:ℚ) := by positivity
  have hWq : (W:ℚ) * ((L:ℚ)/(W:ℚ)) = (L:ℚ) := by field_simp
  have hW1 : ((W - 1 : ℕ) : ℚ) = (W:ℚ) - 1 := by
    have h1 : (1:ℕ) ≤ W := hW
    push_cast [Nat.cast_sub h1]
    ring
  have hsdef := chunkStart_eq_pyRound L W (W-1) hW
  have hedef := chunkEnd_eq_pyRound L W (W-1) hW
  rw [hW1] at hsdef
  have hsl : ((W:ℚ) - 1) * ((L:ℚ)/(W:ℚ)) - 1 ≤ (chunkStart L W (W-1) : ℚ) := by
    have h := le_pyRound (((W:ℚ) - 1) * ((L:ℚ)/(W:ℚ)) - 1/2)
    rw [← hsdef] at h
    linarith
  have hel : (chunkStart L W (W-1) : ℚ) + (L:ℚ)/(W:ℚ) ≤ (chunkEnd L W (W-1) : ℚ) := by
    have h := le_pyRound ((chunkStart L W (W-1) : ℚ) + (L:ℚ)/(W:ℚ) + 1/2)
    rw [← hedef] at h
    linarith
  have heu : (chunkEnd L W (W-1) : ℚ) ≤ ((L:ℚ)) - 1 := by
    have h : chunkEnd L W (W-1) ≤ (L:ℤ) - 1 := by omega
    exact_mod_cast h
  -- the end is forced to exactly L - 1 and the start to (W-1)*(L/W) - 1
  have he_eq : (chunkEnd L W (W-1) : ℚ) = (L:ℚ) - 1 := by
    nlinarith [hsl, hel, hWq]
  have hs_eq : (chunkStart L W (W-1) : ℚ) = ((W:ℚ) - 1) * ((L:ℚ)/(W:ℚ)) - 1 := by
    nlinarith [hsl, hel, hWq, he_eq]
  -- so L/W is the integer L - chunkStart - 1
  have hqz : (((L:ℤ) - chunkStart L W (W-1) - 1 : ℤ) : ℚ) = (L:ℚ)/(W:ℚ) := by
    push_cast
    nlinarith [hs_eq, hWq]
  -- evaluate the end with the half-to-even rule
  have harg1 : (chunkStart L W (W-1) : ℚ) + (L:ℚ)/(W:ℚ) + 1/2 =
      (((L:ℤ) - 1 : ℤ) : ℚ) + 1/2 := by
    push_cast
    nlinarith [hs_eq, hWq]
  rw [harg1, pyRound_add_half] at hedef
  have he_int : chunkEnd L W (W-1) = (L:ℤ) - 1 := by
    exact_mod_cast he_eq
  have hpar : ((L:ℤ) - 1) % 2 = 0 := by
    by_contra hne
    rw [if_neg hne] at hedef
    omega
  rw [if_pos hpar] at hedef
  -- evaluate the start with the half-to-even rule
  have harg2 : ((W:ℚ) - 1) * ((L:ℚ)/(W:ℚ)) - 1/2 =
      ((chunkStart L W (W-1) : ℤ) : ℚ) + 1/2 := by
    push_cast
    linarith [hs_eq]
  rw [harg2, pyRound_add_half] at hsdef
  have hseven : chunkStart L W (W-1) % 2 = 0 := by
    by_contra hne
    rw [if_neg hne] at hsdef
    omega
  -- integer form of W * (L/W) = L
  have hWqz : (W:ℤ) * ((L:ℤ) - chunkStart L W (W-1) - 1) = (L:ℤ) := by
    have h1 : ((W:ℤ):ℚ) * (((L:ℤ) - chunkStart L W (W-1) - 1 : ℤ) : ℚ) = ((L:ℤ):ℚ) := by
      rw [hqz]
      push_cast
      linarith [hWq]
    exact_mod_cast h1
  -- parity contradiction: L must be both odd and even
  obtain ⟨t, ht⟩ : (2:ℤ) ∣ ((L:ℤ) - chunkStart L W (W-1) - 1) := by
    apply Int.dvd_of_emod_eq_zero
    omega
  have hLe : (L:ℤ) = 2 * ((W:ℤ) * t) := by
    rw [← hWqz, ht]
    ring
  omega

/-- Coverage of the chunk partition: every index below `L` lies in at least
one worker's chunk. -/
theorem chunk_coverage (L W j : ℕ) (hW : 0 < W) (hj : j < L) :
    ∃ i, i < W ∧ chunkStart L W i ≤ (j : ℤ) ∧ (j : ℤ) < chunkEnd L W i := by
  classical
  have hTne : (Finset.filter (fun i => chunkStart L W i ≤ (j:ℤ)) (Finset.range W)).Nonempty := by
    refine ⟨0, ?_⟩
    rw [Finset.mem_filter, Finset.mem_range]
    refine ⟨hW, ?_⟩
    rw [chunkStart_zero L W hW]
    positivity
  have hmem := Finset.max'_mem _ hTne
  rw [Finset.mem_filter, Finset.mem_range] at hmem
  refine ⟨Finset.max' _ hTne, hmem.1, hmem.2, ?_⟩
  by_cases hsucc : Finset.max' _ hTne + 1 < W
  · have hnotin : Finset.max' _ hTne + 1 ∉
        Finset.filter (fun i => chunkStart L W i ≤ (j:ℤ)) (Finset.range W) := by
      intro hin
      have := Finset.le_max' _ _ hin
      omega
    have hgt : ¬(chunkStart L W (Finset.max' _ hTne + 1) ≤ (j:ℤ)) := by
      intro hle
      exact hnotin (by rw [Finset.mem_filter, Finset.mem_range]; exact ⟨hsucc, hle⟩)
    push_neg at hgt
    calc (j:ℤ) < chunkStart L W (Finset.max' _ hTne + 1) := hgt
      _ ≤ chunkEnd L W (Finset.max' _ hTne) :=
        chunkStart_succ_le_chunkEnd L W (Finset.max' _ hTne) hW
  · have hi0last : Finset.max' _ hTne = W - 1 := by omega
    rw [hi0last]
    calc (j:ℤ) < (L:ℤ) := by exact_mod_cast hj
      _ ≤ chunkEnd L W (W-1) := le_chunkEnd_last L W hW

/-! ### Association-list (Python dict) lemmas -/

theorem alistGet_set_self {α β : Type} [DecidableEq α] (d : List (α × β)) (k : α) (v : β) :
    alistGet (alistSet d k v) k = some v := by
  induction d with
  | nil => simp [alistSet, alistGet]
  | cons p ps ih =>
    by_cases h : p.1 = k
    · simp [alistSet, alistGet, h]
    · simp [alistSet, alistGet, h, ih]

theorem alistGet_set_ne {α β : Type} [DecidableEq α] (d : List (α × β)) (k k' : α) (v : β)
    (h : k' ≠ k) : alistGet (alistSet d k v) k' = alistGet d k' := by
  induction d with
  | nil => simp [alistSet, alistGet, Ne.symm h]
  | cons p ps ih =>
    by_cases hp : p.1 = k
    · simp [alistSet, alistGet, hp, h, Ne.symm h]
    · by_cases hp' : p.1 = k'
      · simp [alistSet, alistGet, hp, hp', h, Ne.symm h]
      · simp [alistSet, alistGet, hp, hp', h, Ne.symm h, ih]

theorem alistGet_eq_none_iff {α β : Type} [DecidableEq α] (d : List (α × β)) (k : α) :
    alistGet d k = none ↔ k ∉ alistKeys d := by
  induction d with
  | nil => simp [alistGet, alistKeys]
  | cons p ps ih =>
    by_cases hp : p.1 = k
    · simp [alistGet, alistKeys, hp]
    · simp [alistGet, alistKeys, hp, ih, Ne.symm hp]

theorem alistSet_of_notMem {α β : Type} [DecidableEq α] (d : List (α × β)) (k : α) (v : β)
    (h : k ∉ alistKeys d) : alistSet d k v = d ++ [(k, v)] := by
  induction d with
  | nil => simp [alistSet]
  | cons p ps ih =>
    simp only [alistKeys, List.map_cons, List.mem_cons, not_or] at h
    simp [alistSet, Ne.symm h.1, ih (by simp [alistKeys, h.2])]

theorem alistSet_eq_self {α β : Type} [DecidableEq α] (d : List (α × β)) (k : α) (v : β)
    (h : alistGet d k = some v) : alistSet d k v = d := by
  induction d with
  | nil => simp [alistGet] at h
  | cons p ps ih =>
    by_cases hp : p.1 = k
    · simp only [alistGet, if_pos hp, Option.some.injEq] at h
      simp only [alistSet, if_pos hp]
      rw [← hp, ← h]
    · simp only [alistGet, if_neg hp] at h
      simp [alistSet, hp, ih h]

theorem alistGet_append_of_none {α β : Type} [DecidableEq α] (d d' : List (α × β)) (k : α)
    (h : alistGet d k = none) : alistGet (d ++ d') k = alistGet d' k := by
  induction d with
  | nil => simp
  | cons p ps ih =>
    by_cases hp : p.1 = k
    · simp [alistGet, hp] at h
    · simp only [alistGet, if_neg hp] at h
      simp [alistGet, hp, ih h]

theorem alistGet_map_pair {α β : Type} [DecidableEq α] (f : α → β) (l : List α) (k : α) :
    alistGet (l.map (fun x => (x, f x))) k = if k ∈ l then some (f k) else none := by
  induction l with
  | nil => simp [alistGet]
  | cons x xs ih =>
    by_cases hx : x = k
    · subst hx
      simp [alistGet]
    · simp [alistGet, hx, ih, Ne.symm hx]

theorem alistKeys_map_pair {α β : Type} (f : α → β) (l : List α) :
    alistKeys (l.map (fun x => (x, f x))) = l := by
  induction l with
  | nil => rfl
  | cons x xs ih =>
    simp only [alistKeys, List.map_cons] at ih ⊢
    simp [ih]

/-! ### The fan-out/fan-in merge over chunks -/

theorem foldSet_present {α β : Type} [DecidableEq α] (f : α → β) (chunk : List α)
    (acc : List (α × β)) (h : ∀ k ∈ chunk, alistGet acc k = some (f k)) :
    chunk.foldl (fun a k => alistSet a k (f k)) acc = acc := by
  induction chunk generalizing acc with
  | nil => rfl
  | cons x xs ih =>
    rw [List.foldl_cons, alistSet_eq_self _ _ _ (h x (by simp))]
    exact ih acc (fun k hk => h k (by simp [hk]))

theorem foldSet_fresh {α β : Type} [DecidableEq α] (f : α → β) (chunk : List α)
    (acc : List (α × β)) (hnd : chunk.Nodup) (h : ∀ k ∈ chunk, alistGet acc k = none) :
    chunk.foldl (fun a k => alistSet a k (f k)) acc =
      acc ++ chunk.map (fun x => (x, f x)) := by
  induction chunk generalizing acc with
  | nil => simp
  | cons x xs ih =>
    rw [List.foldl_cons,
      alistSet_of_notMem _ _ _ ((alistGet_eq_none_iff _ _).mp (h x (by simp)))]
    rw [ih (acc ++ [(x, f x)]) hnd.of_cons]
    · simp
    · intro k hk
      rw [alistGet_append_of_none _ _ _ (h k (by simp [hk]))]
      have hxk : x ≠ k := by
        rintro rfl
        exact (List.nodup_cons.mp hnd).1 hk
      simp [alistGet, hxk]

theorem buildFor_eq_map {α β : Type} [DecidableEq α] (f : α → β) (chunk : List α)
    (hnd : chunk.Nodup) : buildFor f chunk = chunk.map (fun x => (x, f x)) := by
  have h := foldSet_fresh f chunk [] hnd (fun k _ => rfl)
  simpa [buildFor] using h

theorem mergeInto_map_pair {α β : Type} [DecidableEq α] (f : α → β) (chunk : List α)
    (inv : List (α × β)) :
    mergeInto inv (chunk.map (fun x => (x, f x))) =
      chunk.foldl (fun a k => alistSet a k (f k)) inv := by
  rw [mergeInto, List.foldl_map]

theorem take_subset_take {α : Type} (l : List α) (e m : ℕ) (h : e ≤ m) (x : α)
    (hx : x ∈ l.take e) : x ∈ l.take m := by
  have h1 : (l.take m).take e = l.take e := by
    rw [List.take_take, min_eq_left h]
  rw [← h1] at hx
  exact List.take_subset _ _ hx

/-- Folding one chunk `l[s:e]` into the dict holding the first `m` items
extends it to the first `max m e` items (for `s ≤ m`): the already-present
entries are overwritten with the identical value, the fresh ones are
appended in list order. -/
theorem foldSet_slice_step {α β : Type} [DecidableEq α] (f : α → β) (l : List α)
    (hnd : l.Nodup) (m s e : ℕ) (hmL : m ≤ l.length) (hs : s ≤ m) (heL : e ≤ l.length) :
    ((l.take e).drop s).foldl (fun a k => alistSet a k (f k))
        ((l.take m).map (fun x => (x, f x))) =
      (l.take (max m e)).map (fun x => (x, f x)) := by
  rcases le_or_lt e m with hem | hem
  · rw [max_eq_left hem]
    apply foldSet_present
    intro k hk
    have hk1 : k ∈ l.take m :=
      take_subset_take l e m hem k (List.drop_subset _ _ hk)
    rw [alistGet_map_pair, if_pos hk1]
  · rw [max_eq_right (le_of_lt hem)]
    have htm : (l.take e).take m = l.take m := by
      rw [List.take_take, min_eq_left (le_of_lt hem)]
    have hsplit0 : l.take e = l.take m ++ (l.take e).drop m := by
      conv_lhs => rw [← List.take_append_drop m (l.take e)]
      rw [htm]
    have hlenm : (l.take m).length = m := by
      rw [List.length_take, min_eq_left hmL]
    have hsplit : (l.take e).drop s = (l.take m).drop s ++ (l.take e).drop m := by
      conv_lhs => rw [hsplit0]
      rw [List.drop_append_of_le_length (by rw [hlenm]; exact hs)]
    rw [hsplit, List.foldl_append]
    rw [foldSet_present f ((l.take m).drop s) _ (fun k hk => by
      rw [alistGet_map_pair, if_pos (List.drop_subset _ _ hk)])]
    have hdisj : (l.take m).Disjoint (l.drop m) :=
      List.disjoint_of_nodup_append ((List.take_append_drop m l).symm ▸ hnd)
    have hBsub : ∀ k ∈ (l.take e).drop m, k ∈ l.drop m := by
      intro k hk
      rw [List.drop_take e m l] at hk
      exact List.take_subset _ _ hk
    have hBnd : ((l.take e).drop m).Nodup :=
      hnd.sublist ((List.drop_sublist _ _).trans (List.take_sublist _ _))
    rw [foldSet_fresh f _ _ hBnd (fun k hk => by
      rw [alistGet_map_pair, if_neg (fun hmem => hdisj hmem (hBsub k hk))])]
    rw [← List.map_append, ← hsplit0]

/-- The whole fan-out/fan-in merge rebuilds exactly the dict mapping each
item of `l` (in order) to `f` of it: chunk overlaps only overwrite entries
with identical values, and the no-gap/last-chunk lemmas give coverage. -/
theorem chunkedBuild_eq_map {α β : Type} [DecidableEq α] (l : List α) (W : ℕ) (f : α → β)
    (hW : 0 < W) (hnd : l.Nodup) :
    chunkedBuild l W f = l.map (fun x => (x, f x)) := by
  have main : ∀ n, n ≤ W → ∃ m, m ≤ l.length ∧
      (chunkStart l.length W n).toNat ≤ m ∧
      (W ≤ n → m = l.length) ∧
      (List.range n).foldl (fun inv i =>
        mergeInto inv (buildFor f
          (pySlice l (chunkStart l.length W i) (chunkEnd l.length W i)))) [] =
        (l.take m).map (fun x => (x, f x)) := by
    intro n
    induction n with
    | zero =>
      intro _
      refine ⟨0, Nat.zero_le _, ?_, ?_, by simp⟩
      · rw [chunkStart_zero _ _ hW]
        simp
      · intro h
        omega
    | succ n ih =>
      intro hn1
      obtain ⟨m, hmL, hsm, _, hfold⟩ := ih (by omega)
      have hchunkNd : ((l.take (chunkEnd l.length W n).toNat).drop
          (chunkStart l.length W n).toNat).Nodup :=
        hnd.sublist ((List.drop_sublist _ _).trans (List.take_sublist _ _))
      have hrange : List.range (n+1) = List.range n ++ [n] := by
        rw [List.range_succ]
      set e2 : ℕ := min (chunkEnd l.length W n).toNat l.length with he2
      have htake_e : l.take (chunkEnd l.length W n).toNat = l.take e2 := by
        rw [List.take_eq_take]
        omega
      refine ⟨max m e2, by omega, ?_, ?_, ?_⟩
      · -- the next chunk's start is at most the new frontier
        have h1 : chunkStart l.length W (n+1) ≤ chunkEnd l.length W n :=
          chunkStart_succ_le_chunkEnd _ _ _ hW
        have h2 : chunkStart l.length W (n+1) ≤ (l.length : ℤ) :=
          chunkStart_le_length _ _ _ hW hn1
        omega
      · -- after the last chunk the frontier is the whole list
        intro hWn
        have hlast : n = W - 1 := by omega
        have h3 : (l.length : ℤ) ≤ chunkEnd l.length W n := by
          rw [hlast]
          exact le_chunkEnd_last _ _ hW
        omega
      · rw [hrange, List.foldl_append, hfold]
        simp only [List.foldl_cons, List.foldl_nil]
        rw [pySlice, buildFor_eq_map f _ hchunkNd, mergeInto_map_pair, htake_e]
        exact foldSet_slice_step f l hnd m _ e2 hmL hsm (by omega)
  obtain ⟨m, hmL, _, hWm, hfold⟩ := main W le_rfl
  rw [chunkedBuild, hfold, hWm le_rfl, List.take_length]

theorem chunkedBuild_get {α β : Type} [DecidableEq α] (l : List α) (W : ℕ) (f : α → β)
    (hW : 0 < W) (hnd : l.Nodup) (k : α) :
    alistGet (chunkedBuild l W f) k = if k ∈ l then some (f k) else none := by
  rw [chunkedBuild_eq_map l W f hW hnd, alistGet_map_pair]

theorem chunkedBuild_keys {α β : Type} [DecidableEq α] (l : List α) (W : ℕ) (f : α → β)
    (hW : 0 < W) (hnd : l.Nodup) :
    alistKeys (chunkedBuild l W f) = l := by
  rw [chunkedBuild_eq_map l W f hW hnd, alistKeys_map_pair]

/-! ### The per-document dictionary -/

theorem build_doc_dict_aux (doc : List String) (rest : List String)
    (acc : List (String × ℕ)) (seen : List String)
    (hacc : ∀ w, alistGet acc w = if w ∈ seen then some (doc.count w) else none) :
    ∀ w, alistGet (rest.foldl (fun output word =>
      if (alistGet output word).isSome then output
      else alistSet output word (doc.count word)) acc) w =
      if w ∈ seen ++ rest then some (doc.count w) else none := by
  induction rest generalizing acc seen with
  | nil =>
    intro w
    simpa using hacc w
  | cons x xs ih =>
    intro w
    rw [List.foldl_cons]
    by_cases hx : (alistGet acc x).isSome
    · have hxseen : x ∈ seen := by
        by_contra hns
        rw [hacc x, if_neg hns] at hx
        simp at hx
      rw [if_pos hx, ih acc seen hacc w]
      have hmem : (w ∈ seen ++ xs) ↔ (w ∈ seen ++ x :: xs) := by
        simp only [List.mem_append, List.mem_cons]
        constructor
        · tauto
        · rintro (h | rfl | h) <;> tauto
      exact if_congr hmem rfl rfl
    · rw [if_neg hx]
      have hnew : ∀ w2, alistGet (alistSet acc x (doc.count x)) w2 =
          if w2 ∈ seen ++ [x] then some (doc.count w2) else none := by
        intro w2
        by_cases hw2 : w2 = x
        · subst hw2
          rw [alistGet_set_self, if_pos (by simp)]
        · rw [alistGet_set_ne _ _ _ _ hw2, hacc w2]
          exact if_congr (by simp [hw2]) rfl rfl
      have := ih (alistSet acc x (doc.count x)) (seen ++ [x]) hnew w
      rw [this, List.append_assoc, List.singleton_append]

/-- Lookup characterization of `build_doc_dict`: a word maps to its exact
occurrence count if present among the tokens, and to nothing otherwise. -/
theorem build_doc_dict_get (doc : List String) (w : String) :
    alistGet (build_doc_dict doc) w = if w ∈ doc then some (doc.count w) else none := by
  have h := build_doc_dict_aux doc doc [] [] (fun w2 => by simp [alistGet]) w
  simpa [build_doc_dict] using h

theorem build_doc_dict_pos (doc : List String) (w : String) (c : ℕ)
    (h : alistGet (build_doc_dict doc) w = some c) : 0 < c := by
  rw [build_doc_dict_get] at h
  by_cases hw : w ∈ doc
  · rw [if_pos hw] at h
    injection h with h
    rw [← h]
    exact List.count_pos_iff.mpr hw
  · rw [if_neg hw] at h
    cases h

/-! ### Key sets of the merged corpus dictionary -/

theorem alistKeys_set_of_mem {α β : Type} [DecidableEq α] (d : List (α × β)) (k : α) (v : β)
    (h : k ∈ alistKeys d) : alistKeys (alistSet d k v) = alistKeys d := by
  induction d with
  | nil => simp [alistKeys] at h
  | cons p ps ih =>
    by_cases hp : p.1 = k
    · simp [alistSet, alistKeys, hp]
    · have hps : k ∈ alistKeys ps := by
        simp only [alistKeys, List.map_cons, List.mem_cons] at h
        rcases h with h | h
        · exact absurd h.symm hp
        · exact h
      simp only [alistSet, if_neg hp, alistKeys, List.map_cons]
      exact congrArg (p.1 :: ·) (ih hps)

theorem alistKeys_set_nodup {α β : Type} [DecidableEq α] (d : List (α × β)) (k : α) (v : β)
    (h : (alistKeys d).Nodup) : (alistKeys (alistSet d k v)).Nodup := by
  by_cases hk : k ∈ alistKeys d
  · rw [alistKeys_set_of_mem _ _ _ hk]
    exact h
  · rw [alistSet_of_notMem _ _ _ hk]
    simp only [alistKeys, List.map_append, List.map_cons, List.map_nil]
    rw [List.nodup_append]
    exact ⟨h, List.nodup_singleton _, by simpa [alistKeys] using hk⟩

theorem corpus_inner_fold_nodup (doc : List (String × ℕ)) (out : List (String × ℕ))
    (h : (alistKeys out).Nodup) :
    (alistKeys (doc.foldl (fun out2 p =>
      match alistGet out2 p.1 with
      | some c => alistSet out2 p.1 (c + p.2)
      | none => alistSet out2 p.1 p.2) out)).Nodup := by
  induction doc generalizing out with
  | nil => exact h
  | cons p ps ih =>
    rw [List.foldl_cons]
    apply ih
    cases hg : alistGet out p.1 with
    | none => exact alistKeys_set_nodup _ _ _ h
    | some c => exact alistKeys_set_nodup _ _ _ h

/-- The corpus dictionary has no duplicate keys (it is a Python dict). -/
theorem build_corpus_dict_keys_nodup (docs : List (List (String × ℕ))) :
    (alistKeys (build_corpus_dict docs)).Nodup := by
  rw [build_corpus_dict]
  have main : ∀ (ds : List (List (String × ℕ))) (out : List (String × ℕ)),
      (alistKeys out).Nodup →
      (alistKeys (ds.foldl (fun output doc =>
        doc.foldl (fun out2 p =>
          match alistGet out2 p.1 with
          | some c => alistSet out2 p.1 (c + p.2)
          | none => alistSet out2 p.1 p.2) output) out)).Nodup := by
    intro ds
    induction ds with
    | nil => intro out h; exact h
    | cons d ds ih =>
      intro out h
      rw [List.foldl_cons]
      exact ih _ (corpus_inner_fold_nodup d out h)
  exact main docs [] (by simp [alistKeys])

/-! ### The inverted index -/

theorem build_inverted_index_get (docs : List (List (String × ℕ))) (W : ℕ) (w : String)
    (hW : 0 < W) :
    alistGet (build_inverted_index docs (build_corpus_dict docs) W) w =
      if w ∈ alistKeys (build_corpus_dict docs) then some (postingList w docs) else none := by
  rw [build_inverted_index, chunkedBuild_get _ _ _ hW (build_corpus_dict_keys_nodup docs)]

theorem build_inverted_index_keys (docs : List (List (String × ℕ))) (W : ℕ) (hW : 0 < W) :
    alistKeys (build_inverted_index docs (build_corpus_dict docs) W) =
      alistKeys (build_corpus_dict docs) := by
  rw [build_inverted_index, chunkedBuild_keys _ _ _ hW (build_corpus_dict_keys_nodup docs)]

theorem mem_postingList (word : String) (docs : List (List (String × ℕ))) (i : ℕ) :
    i ∈ postingList word docs ↔
      i < docs.length ∧ (alistGet (docs.getD i []) word).isSome := by
  simp [postingList, List.mem_filter, List.mem_range]

theorem postingList_sorted (word : String) (docs : List (List (String × ℕ))) :
    List.Pairwise (· < ·) (postingList word docs) :=
  (List.pairwise_lt_range _).filter _

/-- Every dictionary reachable as a document of `build_doc_dicts` maps its
keys to positive counts. -/
theorem build_doc_dicts_values_pos (text : String) (i : ℕ) (w : String) (c : ℕ)
    (h : alistGet ((build_doc_dicts text).getD i []) w = some c) : 0 < c := by
  rw [build_doc_dicts] at h
  cases i with
  | zero => simp [alistGet] at h
  | succ j =>
    rw [List.getD_cons_succ, List.getD_eq_getElem?_getD, List.getElem?_map] at h
    cases hline : (pySplitlines text)[j]? with
    | none =>
      rw [hline] at h
      simp [alistGet] at h
    | some line =>
      rw [hline] at h
      simp only [Option.map_some', Option.getD_some] at h
      exact build_doc_dict_pos _ _ _ h

/-- The sentinel document 0 occurs in no postings list. -/
theorem zero_not_mem_postingList (text : String) (word : String) :
    0 ∉ postingList word (build_doc_dicts text) := by
  rw [mem_postingList]
  rintro ⟨-, hsome⟩
  rw [build_doc_dicts] at hsome
  simp [alistGet] at hsome

/-! ### The candidate filter -/

theorem relevant_docs_set_ok_subset (qs : List String) (idx : List (String × List ℕ))
    (s S : Finset ℕ) (h : relevant_docs_set qs idx s = .ok S) : S ⊆ s := by
  induction qs generalizing s with
  | nil =>
    rw [relevant_docs_set] at h
    injection h with h
    rw [h]
  | cons w ws ih =>
    rw [relevant_docs_set] at h
    cases hg : alistGet idx w with
    | none =>
      rw [hg] at h
      cases h
    | some lw =>
      rw [hg] at h
      exact (ih _ h).trans Finset.inter_subset_left

theorem relevant_docs_set_subset_postings (qs : List String) (idx : List (String × List ℕ))
    (s S : Finset ℕ) (w : String) (h : relevant_docs_set qs idx s = .ok S) (hw : w ∈ qs) :
    ∃ lw, alistGet idx w = some lw ∧ S ⊆ lw.toFinset := by
  induction qs generalizing s with
  | nil => simp at hw
  | cons w2 ws ih =>
    rw [relevant_docs_set] at h
    cases hg : alistGet idx w2 with
    | none =>
      rw [hg] at h
      cases h
    | some lw2 =>
      rw [hg] at h
      rcases List.mem_cons.mp hw with rfl | hmem
      · exact ⟨lw2, hg, (relevant_docs_set_ok_subset _ _ _ _ h).trans
          Finset.inter_subset_right⟩
      · exact ih _ h hmem

theorem relevant_docs_set_error_of_missing (qs : List String) (idx : List (String × List ℕ))
    (s : Finset ℕ) (w : String) (hw : w ∈ qs) (hnone : alistGet idx w = none) :
    relevant_docs_set qs idx s = .error "KeyError" := by
  induction qs generalizing s with
  | nil => simp at hw
  | cons w2 ws ih =>
    rw [relevant_docs_set]
    by_cases hww : w2 = w
    · subst hww
      rw [hnone]
    · cases hg : alistGet idx w2 with
      | none => rfl
      | some lw2 =>
        rcases List.mem_cons.mp hw with rfl | hmem
        · rw [hg] at hnone
          cases hnone
        · exact ih _ hmem

/-! ### The stable sort -/

theorem mem_insertLe {α : Type} (le : α → α → Bool) (x : α) (l : List α) (y : α) :
    y ∈ insertLe le x l ↔ y = x ∨ y ∈ l := by
  induction l with
  | nil => simp [insertLe]
  | cons z zs ih =>
    rw [insertLe]
    by_cases h : le x z
    · rw [if_pos h]
      simp only [List.mem_cons]
    · rw [if_neg h]
      simp only [List.mem_cons, ih]
      tauto

theorem insertLe_perm {α : Type} (le : α → α → Bool) (x : α) (l : List α) :
    (insertLe le x l).Perm (x :: l) := by
  induction l with
  | nil => simp [insertLe]
  | cons z zs ih =>
    rw [insertLe]
    by_cases h : le x z
    · rw [if_pos h]
    · rw [if_neg h]
      exact (ih.cons z).trans (List.Perm.swap x z zs)

theorem sortLe_perm {α : Type} (le : α → α → Bool) (l : List α) :
    (sortLe le l).Perm l := by
  induction l with
  | nil => simp [sortLe]
  | cons x xs ih =>
    rw [sortLe]
    exact (insertLe_perm le x (sortLe le xs)).trans (ih.cons x)

theorem mem_sortLe {α : Type} (le : α → α → Bool) (l : List α) (y : α) :
    y ∈ sortLe le l ↔ y ∈ l :=
  (sortLe_perm le l).mem_iff

theorem sortLe_nodup {α : Type} (le : α → α → Bool) (l : List α) (h : l.Nodup) :
    (sortLe le l).Nodup :=
  (sortLe_perm le l).nodup_iff.mpr h

theorem pairwise_insertLe {α : Type} (le : α → α → Bool) (x : α) (l : List α)
    (hl : l.Pairwise (fun a b => le a b = true))
    (htot : ∀ y ∈ l, le x y = true ∨ le y x = true)
    (htr : ∀ a ∈ x :: l, ∀ b ∈ x :: l, ∀ c ∈ x :: l,
      le a b = true → le b c = true → le a c = true) :
    (insertLe le x l).Pairwise (fun a b => le a b = true) := by
  induction l with
  | nil => simp [insertLe]
  | cons z zs ih =>
    rw [insertLe]
    by_cases h : le x z
    · rw [if_pos h]
      apply List.Pairwise.cons
      · intro y hy
        rcases List.mem_cons.mp hy with rfl | hyzs
        · exact h
        · have hzy : le z y = true := (List.pairwise_cons.mp hl).1 y hyzs
          exact htr x (by simp) z (by simp) y (by simp [hyzs]) h hzy
      · exact hl
    · rw [if_neg h]
      have hzx : le z x = true := by
        rcases htot z (by simp) with h1 | h1
        · exact absurd h1 h
        · exact h1
      apply List.Pairwise.cons
      · intro y hy
        rcases (mem_insertLe le x zs y).mp hy with rfl | hyzs
        · exact hzx
        · exact (List.pairwise_cons.mp hl).1 y hyzs
      · apply ih (List.pairwise_cons.mp hl).2
        · intro y hy
          exact htot y (by simp [hy])
        · intro a ha b hb c hc
          have hsub : ∀ t, t ∈ x :: zs → t ∈ x :: z :: zs := by
            intro t ht
            rcases List.mem_cons.mp ht with rfl | ht2
            · simp
            · simp [ht2]
          exact htr a (hsub a ha) b (hsub b hb) c (hsub c hc)

theorem pairwise_sortLe {α : Type} (le : α → α → Bool) (l : List α)
    (htot : ∀ a ∈ l, ∀ b ∈ l, le a b = true ∨ le b a = true)
    (htr : ∀ a ∈ l, ∀ b ∈ l, ∀ c ∈ l, le a b = true → le b c = true → le a c = true) :
    (sortLe le l).Pairwise (fun a b => le a b = true) := by
  induction l with
  | nil => simp [sortLe]
  | cons x xs ih =>
    rw [sortLe]
    have hmemx : ∀ t, t ∈ x :: sortLe le xs → t ∈ x :: xs := by
      intro t ht
      rcases List.mem_cons.mp ht with rfl | ht2
      · simp
      · simp [(mem_sortLe le xs t).mp ht2]
    apply pairwise_insertLe
    · apply ih
      · intro a ha b hb
        exact htot a (by simp [ha]) b (by simp [hb])
      · intro a ha b hb c hc
        exact htr a (by simp [ha]) b (by simp [hb]) c (by simp [hc])
    · intro y hy
      exact htot x (by simp) y (by simp [(mem_sortLe le xs y).mp hy])
    · intro a ha b hb c hc
      exact htr a (hmemx a ha) b (hmemx b hb) c (hmemx c hc)

theorem sublist_insertLe {α : Type} (le : α → α → Bool) (x : α) (l : List α) :
    List.Sublist l (insertLe le x l) := by
  induction l with
  | nil => simp [insertLe]
  | cons z zs ih =>
    rw [insertLe]
    by_cases h : le x z
    · rw [if_pos h]
      exact List.sublist_cons_self x (z :: zs)
    · rw [if_neg h]
      exact ih.cons₂ z

theorem insertLe_before {α : Type} (le : α → α → Bool) (x : α) (l : List α) (b : α)
    (hb : b ∈ l) (hxb : le x b = true) :
    List.Sublist [x, b] (insertLe le x l) := by
  induction l with
  | nil => simp at hb
  | cons z zs ih =>
    rw [insertLe]
    by_cases h : le x z
    · rw [if_pos h]
      exact List.Sublist.cons₂ x (List.singleton_sublist.mpr hb)
    · rw [if_neg h]
      rcases List.mem_cons.mp hb with rfl | hbzs
      · rw [hxb] at h
        exact absurd rfl h
      · exact (ih hbzs).cons z

theorem sortLe_stable {α : Type} (le : α → α → Bool) (l : List α) (a b : α)
    (hab : List.Sublist [a, b] l) (hle : le a b = true) :
    List.Sublist [a, b] (sortLe le l) := by
  induction l with
  | nil =>
    rw [List.sublist_nil] at hab
    cases hab
  | cons x xs ih =>
    rw [sortLe]
    cases hab with
    | cons _ h =>
      exact (ih h).trans (sublist_insertLe le x (sortLe le xs))
    | cons₂ _ h =>
      have hbxs : b ∈ xs := List.singleton_sublist.mp h
      have hbsort : b ∈ sortLe le xs := (mem_sortLe le xs b).mpr hbxs
      exact insertLe_before le a (sortLe le xs) b hbsort hle

theorem sublist_pair_of_mem {α : Type} (l : List α) (a b : α) (ha : a ∈ l) (hb : b ∈ l)
    (hne : a ≠ b) : List.Sublist [a, b] l ∨ List.Sublist [b, a] l := by
  induction l with
  | nil => simp at ha
  | cons x xs ih =>
    rcases List.mem_cons.mp ha with rfl | haxs
    · have hbxs : b ∈ xs := by
        rcases List.mem_cons.mp hb with rfl | h2
        · exact absurd rfl hne
        · exact h2
      exact Or.inl (List.Sublist.cons₂ a (List.singleton_sublist.mpr hbxs))
    · rcases List.mem_cons.mp hb with rfl | hbxs
      · exact Or.inr (List.Sublist.cons₂ b (List.singleton_sublist.mpr haxs))
      · rcases ih haxs hbxs with h2 | h2
        · exact Or.inl (h2.cons x)
        · exact Or.inr (h2.cons x)

/-! ### Vectors, norms, and angle values -/

theorem foldl_append_singleton {α β : Type} (g : α → β) (l : List α) (acc : List β) :
    l.foldl (fun a x => a ++ [g x]) acc = acc ++ l.map g := by
  induction l generalizing acc with
  | nil => simp
  | cons x xs ih =>
    rw [List.foldl_cons, ih]
    simp

theorem build_vector_eq_map (doc : List (String × ℕ)) (idx : List (String × List ℕ)) :
    build_vector doc idx = (alistKeys idx).map (fun w => (alistGet doc w).getD 0) := by
  rw [build_vector, foldl_append_singleton]
  rw [List.nil_append]
  apply List.map_congr_left
  intro w _
  cases alistGet doc w <;> rfl

theorem build_vector_length (doc : List (String × ℕ)) (idx : List (String × List ℕ)) :
    (build_vector doc idx).length = (alistKeys idx).length := by
  rw [build_vector_eq_map, List.length_map]

theorem dotProduct_cons (x y : ℕ) (v w : List ℕ) :
    dotProduct (x :: v) (y :: w) = x * y + dotProduct v w := by
  simp [dotProduct]

theorem normSq_eq_zero_iff (v : List ℕ) : normSq v = 0 ↔ ∀ x ∈ v, x = 0 := by
  induction v with
  | nil => simp [normSq, dotProduct]
  | cons x xs ih =>
    rw [show normSq (x :: xs) = x * x + normSq xs from by rw [normSq, dotProduct_cons]; rfl]
    rw [Nat.add_eq_zero, Nat.mul_eq_zero, or_self]
    simp only [List.mem_cons, forall_eq_or_imp]
    rw [ih]

theorem normSq_ne_zero_of_mem (v : List ℕ) (x : ℕ) (hx : x ∈ v) (hx0 : x ≠ 0) :
    normSq v ≠ 0 := fun h => hx0 ((normSq_eq_zero_iff v).mp h x hx)

theorem build_vector_entry_mem (doc : List (String × ℕ)) (idx : List (String × List ℕ))
    (w : String) (hw : w ∈ alistKeys idx) :
    (alistGet doc w).getD 0 ∈ build_vector doc idx := by
  rw [build_vector_eq_map]
  exact List.mem_map_of_mem _ hw

theorem exists_pos_entry_of_normSq_ne (doc : List (String × ℕ))
    (idx : List (String × List ℕ)) (h : normSq (build_vector doc idx) ≠ 0) :
    ∃ w ∈ alistKeys idx, ∃ c, alistGet doc w = some c ∧ 0 < c := by
  by_contra hcon
  push_neg at hcon
  apply h
  rw [build_vector_eq_map, normSq_eq_zero_iff]
  intro x hx
  obtain ⟨w, hw, hwx⟩ := List.mem_map.mp hx
  cases hg : alistGet doc w with
  | none =>
    rw [hg] at hwx
    exact hwx.symm
  | some c =>
    have hc := hcon w hw c hg
    rw [hg] at hwx
    simp only [Option.getD_some] at hwx
    omega

theorem ltB_asymm (a b : AngleVal) (h1 : AngleVal.ltB a b = true)
    (h2 : AngleVal.ltB b a = true) : False := by
  simp only [AngleVal.ltB, Bool.and_eq_true, Bool.not_eq_true', decide_eq_true_eq] at h1 h2
  exact Nat.lt_asymm h1.2 h2.2

theorem rankLe_total (p q : ℕ × AngleVal) : rankLe p q = true ∨ rankLe q p = true := by
  rw [rankLe, rankLe]
  by_cases h1 : AngleVal.ltB q.2 p.2 = true
  · right
    by_cases h2 : AngleVal.ltB p.2 q.2 = true
    · exact (ltB_asymm _ _ h2 h1).elim
    · simp [h2]
  · left
    simp [h1]

theorem rankLe_eq_true_iff (p q : ℕ × AngleVal) (hp : p.2.nsp ≠ 0) (hq : q.2.nsp ≠ 0) :
    rankLe p q = true ↔ q.2.dot ^ 2 * p.2.nsp ≤ p.2.dot ^ 2 * q.2.nsp := by
  rw [rankLe]
  simp [AngleVal.ltB, AngleVal.isNaN, hp, hq, Nat.not_lt]

theorem cos_le_trans (A na B nb C nc : ℕ) (hnb : nb ≠ 0)
    (h1 : B * na ≤ A * nb) (h2 : C * nb ≤ B * nc) : C * na ≤ A * nc := by
  rcases Nat.eq_zero_or_pos B with rfl | hB
  · have hC0 : C * nb = 0 := Nat.le_zero.mp (by simpa using h2)
    rcases Nat.mul_eq_zero.mp hC0 with rfl | h3
    · simp
    · exact absurd h3 hnb
  · have hmul : (C * nb) * (B * na) ≤ (B * nc) * (A * nb) := Nat.mul_le_mul h2 h1
    have hre : (B * nb) * (C * na) ≤ (B * nb) * (A * nc) := by
      calc (B * nb) * (C * na) = (C * nb) * (B * na) := by ring
        _ ≤ (B * nc) * (A * nb) := hmul
        _ = (B * nb) * (A * nc) := by ring
    exact Nat.le_of_mul_le_mul_left hre (Nat.mul_pos hB (Nat.pos_of_ne_zero hnb))

theorem rankLe_trans_defined (a b c : ℕ × AngleVal) (ha : a.2.nsp ≠ 0) (hb : b.2.nsp ≠ 0)
    (hc : c.2.nsp ≠ 0) (h1 : rankLe a b = true) (h2 : rankLe b c = true) :
    rankLe a c = true := by
  rw [rankLe_eq_true_iff a b ha hb] at h1
  rw [rankLe_eq_true_iff b c hb hc] at h2
  rw [rankLe_eq_true_iff a c ha hc]
  exact cos_le_trans _ _ _ _ _ _ hb h1 h2

theorem ltB_false_of_nan_left (a b : AngleVal) (h : a.nsp = 0) :
    AngleVal.ltB a b = false := by
  simp [AngleVal.ltB, AngleVal.isNaN, h]

theorem ltB_false_of_nan_right (a b : AngleVal) (h : b.nsp = 0) :
    AngleVal.ltB a b = false := by
  simp [AngleVal.ltB, AngleVal.isNaN, h]

theorem feqB_false_of_nan_left (a b : AngleVal) (h : a.nsp = 0) :
    AngleVal.feqB a b = false := by
  simp [AngleVal.feqB, AngleVal.isNaN, h]

/-! ### Definedness of the angle entries of one query -/

theorem angleEntry_nsp (docs : List (List (String × ℕ))) (idx : List (String × List ℕ))
    (query : String) (id : ℕ) :
    (angleEntry docs idx query id).nsp =
      normSq (build_vector (docs.getD id []) idx) *
        normSq (build_vector (build_doc_dict (pySplit query)) idx) := rfl

theorem angleEntry_nan_of_qzero (text query : String) (W id : ℕ)
    (hqn : normSq (build_vector (build_doc_dict (pySplit query)) (mainIndex text W)) = 0) :
    (angleEntry (build_doc_dicts text) (mainIndex text W) query id).nsp = 0 := by
  rw [angleEntry_nsp, hqn, Nat.mul_zero]

theorem angleEntry_defined (text query : String) (W : ℕ) (S : Finset ℕ) (id : ℕ)
    (hW : 0 < W)
    (hok : mainCandidates text query W = .ok S)
    (hqn : normSq (build_vector (build_doc_dict (pySplit query)) (mainIndex text W)) ≠ 0)
    (hid : id ∈ S) :
    (angleEntry (build_doc_dicts text) (mainIndex text W) query id).nsp ≠ 0 := by
  obtain ⟨w0, hw0keys, c, hc, hcpos⟩ := exists_pos_entry_of_normSq_ne _ _ hqn
  have hw0q : w0 ∈ pySplit query := by
    have hchar := build_doc_dict_get (pySplit query) w0
    rw [hc] at hchar
    by_contra hn
    rw [if_neg hn] at hchar
    cases hchar
  obtain ⟨lw, hlw, hsub⟩ := relevant_docs_set_subset_postings _ _ _ _ w0 hok hw0q
  rw [mainIndex, build_inverted_index_get _ _ _ hW] at hlw
  have hw0cd : w0 ∈ alistKeys (build_corpus_dict (build_doc_dicts text)) := by
    by_contra hn
    rw [if_neg hn] at hlw
    cases hlw
  rw [if_pos hw0cd] at hlw
  injection hlw with hlw
  have hidl : id ∈ postingList w0 (build_doc_dicts text) := by
    rw [hlw]
    exact List.mem_toFinset.mp (hsub hid)
  rw [mem_postingList] at hidl
  obtain ⟨c2, hc2⟩ := Option.isSome_iff_exists.mp hidl.2
  have hc2pos := build_doc_dicts_values_pos text id w0 c2 hc2
  have hw0idx : w0 ∈ alistKeys (mainIndex text W) := by
    rw [mainIndex, build_inverted_index_keys _ _ hW]
    exact hw0cd
  have hentry : (alistGet ((build_doc_dicts text).getD id []) w0).getD 0 ∈
      build_vector ((build_doc_dicts text).getD id []) (mainIndex text W) :=
    build_vector_entry_mem _ _ _ hw0idx
  rw [hc2] at hentry
  have hvn : normSq (build_vector ((build_doc_dicts text).getD id [])
      (mainIndex text W)) ≠ 0 :=
    normSq_ne_zero_of_mem _ _ hentry (by simpa using Nat.pos_iff_ne_zero.mp hc2pos)
  rw [angleEntry_nsp]
  exact Nat.mul_ne_zero hvn hqn

theorem processQueryRanking_ok (text query : String) (W : ℕ) (enum : List ℕ)
    (S : Finset ℕ) (hok : mainCandidates text query W = .ok S) :
    processQueryRanking text query W enum =
      sortLe rankLe (chunkedBuild enum W
        (angleEntry (build_doc_dicts text) (mainIndex text W) query)) := by
  rw [processQueryRanking, hok]

/-! ### Claim theorems -/

/-- C9: `build_doc_dict` maps each distinct token to exactly the number of
times it literally occurs in the token sequence (exact token equality), and
holds no other keys: lookup of any non-token yields nothing. -/
theorem c9_doc_dict_counts (doc : List String) (w : String) :
    alistGet (build_doc_dict doc) w =
      if w ∈ doc then some (doc.count w) else none :=
  build_doc_dict_get doc w

/-- C4: the inverted index is a pure function of the corpus, independent of
the worker count — as whole insertion-ordered dictionaries, the index built
with any `W₁ ≥ 1` workers equals the one built with any `W₂ ≥ 1` workers
(so in particular equals a 1-worker build, and rebuilding reproduces it). -/
theorem c4_worker_count_independent (docs : List (List (String × ℕ))) (W1 W2 : ℕ)
    (hW1 : 0 < W1) (hW2 : 0 < W2) :
    build_inverted_index docs (build_corpus_dict docs) W1 =
      build_inverted_index docs (build_corpus_dict docs) W2 := by
  rw [build_inverted_index, build_inverted_index,
    chunkedBuild_eq_map _ _ _ hW1 (build_corpus_dict_keys_nodup docs),
    chunkedBuild_eq_map _ _ _ hW2 (build_corpus_dict_keys_nodup docs)]

theorem c4_worker_count_independent_witness :
    build_inverted_index (build_doc_dicts "a\nb a")
        (build_corpus_dict (build_doc_dicts "a\nb a")) 3 =
      build_inverted_index (build_doc_dicts "a\nb a")
        (build_corpus_dict (build_doc_dicts "a\nb a")) 1 :=
  c4_worker_count_independent (build_doc_dicts "a\nb a") 3 1 (by decide) (by decide)

/-- C5: for the index built from a corpus, a term's postings list contains a
document ID iff that document's dictionary holds the term with a positive
count, and every postings list is strictly ascending (hence duplicate-free). -/
theorem c5_postings_invariant (text : String) (W : ℕ) (w : String) (l : List ℕ) (i : ℕ)
    (hW : 0 < W)
    (hl : alistGet (mainIndex text W) w = some l)
    (hi : i < (build_doc_dicts text).length) :
    (i ∈ l ↔ ∃ c, alistGet ((build_doc_dicts text).getD i []) w = some c ∧ 0 < c) ∧
      List.Pairwise (· < ·) l := by
  rw [mainIndex, build_inverted_index_get _ _ _ hW] at hl
  have hwcd : w ∈ alistKeys (build_corpus_dict (build_doc_dicts text)) := by
    by_contra hn
    rw [if_neg hn] at hl
    cases hl
  rw [if_pos hwcd] at hl
  injection hl with hl
  subst hl
  refine ⟨?_, postingList_sorted w (build_doc_dicts text)⟩
  rw [mem_postingList]
  constructor
  · rintro ⟨-, hsome⟩
    obtain ⟨c, hc⟩ := Option.isSome_iff_exists.mp hsome
    exact ⟨c, hc, build_doc_dicts_values_pos text i w c hc⟩
  · rintro ⟨c, hc, -⟩
    exact ⟨hi, by rw [hc]; rfl⟩

theorem c5_postings_invariant_witness :
    ((1 ∈ [1, 2] ↔
      ∃ c, alistGet ((build_doc_dicts "cat\ncat").getD 1 []) "cat" = some c ∧ 0 < c) ∧
      List.Pairwise (· < ·) [1, 2]) :=
  c5_postings_invariant "cat\ncat" 1 "cat" [1, 2] 1 (by decide) (by decide) (by decide)

/-- C3 counterexample: the chunk boundaries do NOT put every item in exactly
one chunk — with `L = 5` items and `W = 2` workers, item 2 lies in worker
0's chunk `[0, 3)` and also in worker 1's chunk `[2, 5)`.  (These values
are exactly what Python computes: `round(2.5 - 0.5) = 2`,
`round(0 + 2.5 + 0.5) = 3`.) -/
theorem c3_chunk_overlap_counterexample :
    (chunkStart 5 2 0 ≤ (2 : ℤ) ∧ (2 : ℤ) < chunkEnd 5 2 0) ∧
      (chunkStart 5 2 1 ≤ (2 : ℤ) ∧ (2 : ℤ) < chunkEnd 5 2 1) ∧
      (0 : ℕ) ≠ 1 := by decide

/-- C3 (amended): the chunk-boundary computation covers every item — each of
the `L` items lies in at least one worker's chunk (no item is skipped) —
but items can be assigned to two chunks when `L` is not divisible by `W`;
the same shared formula (`chunkStart`/`chunkEnd`) is used by both the
index-build partition and the candidate-set partition. -/
theorem c3_amended_chunk_coverage (L W j : ℕ) (hW : 1 ≤ W) (hj : j < L) :
    ∃ i, i < W ∧ chunkStart L W i ≤ (j : ℤ) ∧ (j : ℤ) < chunkEnd L W i :=
  chunk_coverage L W j hW hj

theorem c3_amended_chunk_coverage_witness :
    ∃ i, i < 2 ∧ chunkStart 5 2 i ≤ (2 : ℤ) ∧ (2 : ℤ) < chunkEnd 5 2 i :=
  c3_amended_chunk_coverage 5 2 2 (by decide) (by decide)

/-- C1: on a query containing a term absent from the index, the candidate
filter does not produce an empty candidate set — the lookup
`inverted_index[word]` raises `KeyError`, which the `except NameError`
handler cannot catch, so `process_query` aborts with the exception.  (This
is the defect the spec itself flags; the spec's contract demands an empty
candidate set instead.) -/
theorem c1_unseen_term_raises_keyerror :
    mainCandidates "the cat sat\nthe dog ran\ncats and dogs" "zebra" 1 =
      .error "KeyError" ∧
    ∀ S : Finset ℕ,
      mainCandidates "the cat sat\nthe dog ran\ncats and dogs" "zebra" 1 ≠ .ok S := by
  have h1 : mainCandidates "the cat sat\nthe dog ran\ncats and dogs" "zebra" 1 =
      .error "KeyError" := by decide
  refine ⟨h1, ?_⟩
  intro S h
  rw [h1] at h
  cases h

/-- C2 counterexample: for the corpus of the spec's scenario the candidate
set of query "cat" is `{1}`, not `{0}` — the sentinel dictionary occupies
index 0, so documents are numbered from 1. -/
theorem c2_scenario_counterexample :
    mainCandidates "the cat sat\nthe dog ran\ncats and dogs" "cat" 1 = .ok {1} ∧
      ¬(mainCandidates "the cat sat\nthe dog ran\ncats and dogs" "cat" 1 =
        .ok {0}) := by decide

/-- C2 (amended): the scenario's candidate set is `{1}` (doc IDs are
1-based because of the sentinel at index 0), and the angle between document
1 ("the cat sat") and the query "cat" is `arccos(√3/3)` radians expressed
in degrees (≈ 54.74°), which is not 0°: the document vector `(1,1,1,0,…)`
and query vector `(0,1,0,…)` give `dot = 1` and norm product `√3`. -/
theorem c2_scenario_amended :
    mainCandidates "the cat sat\nthe dog ran\ncats and dogs" "cat" 1 = .ok {1} ∧
    processQueryRanking "the cat sat\nthe dog ran\ncats and dogs" "cat" 1 [1] =
      [(1, ⟨1, 3⟩)] ∧
    AngleVal.degreesVal ⟨1, 3⟩ = Real.arccos (Real.sqrt 3 / 3) * 180 / Real.pi ∧
    AngleVal.degreesVal ⟨1, 3⟩ ≠ 0 := by
  have hpos : (0 : ℝ) < Real.sqrt 3 := Real.sqrt_pos.mpr (by norm_num)
  have h13 : (1 : ℝ) / Real.sqrt 3 = Real.sqrt 3 / 3 := by
    rw [div_eq_div_iff (ne_of_gt hpos) (by norm_num : (3:ℝ) ≠ 0), one_mul,
      Real.mul_self_sqrt (by norm_num : (0:ℝ) ≤ 3)]
  have hval : AngleVal.degreesVal ⟨1, 3⟩ =
      Real.arccos (Real.sqrt 3 / 3) * 180 / Real.pi := by
    rw [AngleVal.degreesVal]
    push_cast
    rw [h13]
  have hlt1 : Real.sqrt 3 / 3 < 1 := by
    rw [div_lt_one (by norm_num : (0:ℝ) < 3)]
    have h9 : Real.sqrt 3 < Real.sqrt 9 := by
      apply Real.sqrt_lt_sqrt (by norm_num)
      norm_num
    rw [show (9:ℝ) = 3 ^ 2 by norm_num, Real.sqrt_sq (by norm_num : (0:ℝ) ≤ 3)] at h9
    exact h9
  have harccos : 0 < Real.arccos (Real.sqrt 3 / 3) := Real.arccos_pos.mpr hlt1
  refine ⟨by decide, by decide, hval, ?_⟩
  rw [hval]
  apply ne_of_gt
  apply div_pos (mul_pos harccos (by norm_num)) Real.pi_pos

/-- C6: the code does NOT exclude zero-norm pairings from the ranking.  For
the one-document corpus "cat" and the empty query, both the sentinel
document 0 and document 1 pair with the zero query vector (norm product 0,
a NaN angle after the 0/0 division), yet both are emitted in the ranking
with that NaN value. -/
theorem c6_nan_pairings_not_excluded :
    mainCandidates "cat" "" 1 = .ok {0, 1} ∧
    processQueryRanking "cat" "" 1 [0, 1] = [(0, ⟨0, 0⟩), (1, ⟨0, 0⟩)] ∧
    AngleVal.isNaN ⟨0, 0⟩ = true := by decide

/-- C10: the sentinel document inserted at index 0 never appears in the
candidate set of a query containing at least one indexed term (the
sentinel's dictionary is empty, so its ID is in no postings list), and
hence never appears in the emitted ranking. -/
theorem c10_sentinel_excluded (text query : String) (W : ℕ) (S : Finset ℕ)
    (enum : List ℕ) (hW : 0 < W)
    (hok : mainCandidates text query W = .ok S)
    (hterm : ∃ w ∈ pySplit query, (alistGet (mainIndex text W) w).isSome)
    (hnd : enum.Nodup) (henum : enum.toFinset = S) :
    0 ∉ S ∧ ∀ v : AngleVal, (0, v) ∉ processQueryRanking text query W enum := by
  have h0S : 0 ∉ S := by
    obtain ⟨w, hwq, hsome⟩ := hterm
    obtain ⟨lw, hlw, hsub⟩ := relevant_docs_set_subset_postings _ _ _ _ w hok hwq
    intro h0
    have h0lw : 0 ∈ lw.toFinset := hsub h0
    rw [mainIndex, build_inverted_index_get _ _ _ hW] at hlw
    have hwcd : w ∈ alistKeys (build_corpus_dict (build_doc_dicts text)) := by
      by_contra hn
      rw [if_neg hn] at hlw
      cases hlw
    rw [if_pos hwcd] at hlw
    injection hlw with hlw
    apply zero_not_mem_postingList text w
    rw [hlw]
    exact List.mem_toFinset.mp h0lw
  refine ⟨h0S, ?_⟩
  intro v hmem
  rw [processQueryRanking_ok text query W enum S hok, mem_sortLe,
    chunkedBuild_eq_map enum W _ hW hnd] at hmem
  obtain ⟨id, hid, hpair⟩ := List.mem_map.mp hmem
  have hid0 : id = 0 := congrArg Prod.fst hpair
  subst hid0
  apply h0S
  rw [← henum]
  exact List.mem_toFinset.mpr hid

theorem c10_sentinel_excluded_witness :
    0 ∉ ({1} : Finset ℕ) ∧
      ∀ v : AngleVal, (0, v) ∉ processQueryRanking "cat" "cat" 1 [1] :=
  c10_sentinel_excluded "cat" "cat" 1 {1} [1] (by decide) (by decide) (by decide)
    (by decide) (by decide)

/-- C7 counterexample: equal-angle candidates are NOT emitted in ascending
document-ID order.  For a 17-line corpus whose lines 3 and 17 are both
"cat", the candidate set of query "cat" is {3, 17}; CPython's
`list(relevant_docs)` enumerates it as [17, 3] (both IDs hash into a fresh
8-slot table, 17 landing in slot 17 mod 8 = 1 before 3 in slot 3), the two
angles are equal (both documents are the single word "cat"), the stable
sort keeps that order, and the ranking emits 17 before 3. -/
theorem c7_tie_order_counterexample :
    processQueryRanking "f\nf\ncat\nf\nf\nf\nf\nf\nf\nf\nf\nf\nf\nf\nf\nf\ncat"
        "cat" 1 [17, 3] = [(17, ⟨1, 1⟩), (3, ⟨1, 1⟩)] ∧
    AngleVal.feqB ⟨1, 1⟩ ⟨1, 1⟩ = true ∧ (3 : ℕ) < 17 := by decide

/-- C7 (amended): the emitted ranking lists candidates in ascending order of
angle — if A's angle is strictly below B's then A precedes B — and any two
candidates with equal (non-NaN) angles are emitted in the order they occupy
in the candidate list (Python's unspecified set-iteration order), the sort
being stable; no document-ID tie-break is applied. -/
theorem c7_amended_ranking_order (text query : String) (W : ℕ) (S : Finset ℕ)
    (enum : List ℕ) (a b : ℕ × AngleVal)
    (hW : 0 < W)
    (hok : mainCandidates text query W = .ok S)
    (hnd : enum.Nodup) (henum : enum.toFinset = S)
    (ha : a ∈ processQueryRanking text query W enum)
    (hb : b ∈ processQueryRanking text query W enum) :
    (AngleVal.ltB a.2 b.2 = true →
      List.Sublist [a, b] (processQueryRanking text query W enum)) ∧
    (AngleVal.feqB a.2 b.2 = true → List.Sublist [a.1, b.1] enum →
      List.Sublist [a, b] (processQueryRanking text query W enum)) := by
  have hrw := processQueryRanking_ok text query W enum S hok
  have hmap := chunkedBuild_eq_map enum W
    (angleEntry (build_doc_dicts text) (mainIndex text W) query) hW hnd
  have hmem : ∀ p : ℕ × AngleVal, p ∈ processQueryRanking text query W enum →
      p.1 ∈ enum ∧ p = (p.1, angleEntry (build_doc_dicts text) (mainIndex text W) query p.1) := by
    intro p hp
    rw [hrw, mem_sortLe, hmap] at hp
    obtain ⟨id, hid, hpair⟩ := List.mem_map.mp hp
    subst hpair
    exact ⟨hid, rfl⟩
  obtain ⟨ha1, ha2⟩ := hmem a ha
  obtain ⟨hb1, hb2⟩ := hmem b hb
  by_cases hq : normSq (build_vector (build_doc_dict (pySplit query)) (mainIndex text W)) = 0
  · constructor
    · intro hlt
      exfalso
      have hnan : a.2.nsp = 0 := by
        rw [ha2]
        exact angleEntry_nan_of_qzero text query W a.1 hq
      rw [ltB_false_of_nan_left _ _ hnan] at hlt
      cases hlt
    · intro hfeq _
      exfalso
      have hnan : a.2.nsp = 0 := by
        rw [ha2]
        exact angleEntry_nan_of_qzero text query W a.1 hq
      rw [feqB_false_of_nan_left _ _ hnan] at hfeq
      cases hfeq
  · have hdefm : ∀ p : ℕ × AngleVal,
        p ∈ enum.map (fun id =>
          (id, angleEntry (build_doc_dicts text) (mainIndex text W) query id)) →
        p.2.nsp ≠ 0 := by
      intro p hp
      obtain ⟨id, hid, hpair⟩ := List.mem_map.mp hp
      subst hpair
      exact angleEntry_defined text query W S id hW hok hq
        (by rw [← henum]; exact List.mem_toFinset.mpr hid)
    have hmerged_nd : (enum.map (fun id =>
        (id, angleEntry (build_doc_dicts text) (mainIndex text W) query id))).Nodup :=
      hnd.map (fun x y hxy => congrArg Prod.fst hxy)
    constructor
    · intro hlt
      have hne : a ≠ b := by
        rintro rfl
        exact ltB_asymm _ _ hlt hlt
      have hrank_nd : (processQueryRanking text query W enum).Nodup := by
        rw [hrw, hmap]
        exact sortLe_nodup _ _ hmerged_nd
      rcases sublist_pair_of_mem _ a b ha hb hne with h | h
      · exact h
      · exfalso
        have hpw : (processQueryRanking text query W enum).Pairwise
            (fun p q => rankLe p q = true) := by
          rw [hrw, hmap]
          apply pairwise_sortLe
          · intro p _ q _
            exact rankLe_total p q
          · intro p hp q hq2 r hr h1 h2
            exact rankLe_trans_defined p q r (hdefm p hp) (hdefm q hq2) (hdefm r hr) h1 h2
        have hba := hpw.sublist h
        have hle_ba : rankLe b a = true := (List.pairwise_cons.mp hba).1 a (by simp)
        rw [rankLe, hlt] at hle_ba
        simp at hle_ba
    · intro hfeq henum_order
      have hab_merged : List.Sublist [a, b] (enum.map (fun id =>
          (id, angleEntry (build_doc_dicts text) (mainIndex text W) query id))) := by
        have hm := henum_order.map (fun id =>
          (id, angleEntry (build_doc_dicts text) (mainIndex text W) query id))
        rw [List.map_cons, List.map_cons, List.map_nil] at hm
        rw [← ha2, ← hb2] at hm
        exact hm
      have hle_ab : rankLe a b = true := by
        simp only [AngleVal.feqB, AngleVal.isNaN, Bool.and_eq_true, Bool.not_eq_true',
          decide_eq_false_iff_not, decide_eq_true_eq] at hfeq
        rw [rankLe_eq_true_iff a b hfeq.1.1 hfeq.1.2]
        exact le_of_eq hfeq.2.symm
      rw [hrw, hmap]
      exact sortLe_stable rankLe _ a b hab_merged hle_ab

theorem c7_amended_ranking_order_witness :
    ((AngleVal.ltB (⟨1, 1⟩ : AngleVal) (⟨1, 2⟩ : AngleVal) = true →
      List.Sublist [((1 : ℕ), (⟨1, 1⟩ : AngleVal)), (2, ⟨1, 2⟩)]
        (processQueryRanking "a\nb a" "a" 1 [1, 2])) ∧
    (AngleVal.feqB (⟨1, 1⟩ : AngleVal) (⟨1, 2⟩ : AngleVal) = true →
      List.Sublist [(1 : ℕ), 2] [1, 2] →
      List.Sublist [((1 : ℕ), (⟨1, 1⟩ : AngleVal)), (2, ⟨1, 2⟩)]
        (processQueryRanking "a\nb a" "a" 1 [1, 2]))) :=
  c7_amended_ranking_order "a\nb a" "a" 1 {1, 2} [1, 2] (1, ⟨1, 1⟩) (2, ⟨1, 2⟩)
    (by decide) (by decide) (by decide) (by decide) (by decide) (by decide)

/-! ### The vocabulary enumeration order (first-seen) -/

theorem fsFold_eq_append_fsNew (ws : List String) (acc : List String) :
    ws.foldl (fun acc2 w => if w ∈ acc2 then acc2 else acc2 ++ [w]) acc =
      acc ++ fsNew acc ws := by
  induction ws generalizing acc with
  | nil => simp [fsNew]
  | cons w ws ih =>
    rw [List.foldl_cons, fsNew]
    by_cases hw : w ∈ acc
    · rw [if_pos hw, if_pos hw, ih]
    · rw [if_neg hw, if_neg hw, ih]
      simp

theorem fsNew_collapse (t : List String) (acc B : List String) (hBA : ∀ x ∈ B, x ∈ acc) :
    fsNew acc (fsNew B t) = fsNew acc t := by
  induction t generalizing acc B with
  | nil => simp [fsNew]
  | cons w ws ih =>
    rw [fsNew]
    by_cases hwB : w ∈ B
    · rw [if_pos hwB, ih acc B hBA]
      rw [show fsNew acc (w :: ws) = fsNew acc ws from by
        rw [fsNew, if_pos (hBA w hwB)]]
    · rw [if_neg hwB]
      by_cases hwA : w ∈ acc
      · rw [fsNew, if_pos hwA]
        rw [show fsNew acc (w :: ws) = fsNew acc ws from by rw [fsNew, if_pos hwA]]
        apply ih
        intro x hx
        rcases List.mem_append.mp hx with hx2 | hx2
        · exact hBA x hx2
        · rw [List.mem_singleton.mp hx2]
          exact hwA
      · rw [fsNew, if_neg hwA]
        rw [show fsNew acc (w :: ws) = w :: fsNew (acc ++ [w]) ws from by
          rw [fsNew, if_neg hwA]]
        congr 1
        apply ih
        intro x hx
        rcases List.mem_append.mp hx with hx2 | hx2
        · exact List.mem_append.mpr (Or.inl (hBA x hx2))
        · exact List.mem_append.mpr (Or.inr hx2)

theorem fsFold_firstSeenOrder_collapse (t : List String) (acc : List String) :
    (firstSeenOrder t).foldl (fun acc2 w => if w ∈ acc2 then acc2 else acc2 ++ [w]) acc =
      t.foldl (fun acc2 w => if w ∈ acc2 then acc2 else acc2 ++ [w]) acc := by
  have h1 : firstSeenOrder t = fsNew [] t := by
    rw [firstSeenOrder, fsFold_eq_append_fsNew]
    simp
  rw [fsFold_eq_append_fsNew, fsFold_eq_append_fsNew, h1,
    fsNew_collapse t acc [] (by simp)]

/-- The keys of a document dictionary are its tokens in first-seen order. -/
theorem build_doc_dict_keys (doc : List String) :
    alistKeys (build_doc_dict doc) = firstSeenOrder doc := by
  rw [build_doc_dict, firstSeenOrder]
  have main : ∀ (rest : List String) (acc : List (String × ℕ)),
      alistKeys (rest.foldl (fun output word =>
        if (alistGet output word).isSome then output
        else alistSet output word (doc.count word)) acc) =
      rest.foldl (fun acc2 w => if w ∈ acc2 then acc2 else acc2 ++ [w]) (alistKeys acc) := by
    intro rest
    induction rest with
    | nil => intro acc; rfl
    | cons x xs ih =>
      intro acc
      rw [List.foldl_cons, List.foldl_cons, ih]
      congr 1
      by_cases hx : (alistGet acc x).isSome
      · have hxmem : x ∈ alistKeys acc := by
          by_contra hn
          rw [(alistGet_eq_none_iff acc x).mpr hn] at hx
          simp at hx
        rw [if_pos hx, if_pos hxmem]
      · have hxmem : x ∉ alistKeys acc := by
          intro hmem
          rcases Option.eq_none_or_eq_some (alistGet acc x) with h | ⟨v, h⟩
          · exact (alistGet_eq_none_iff acc x).mp h hmem
          · rw [h] at hx
            simp at hx
        rw [if_neg hx, if_neg hxmem, alistSet_of_notMem _ _ _ hxmem]
        simp [alistKeys]
  exact main doc []

/-- The keys of the corpus dictionary evolve like a first-seen fold over the
concatenated streams of document keys. -/
theorem corpus_inner_fold_keys (doc : List (String × ℕ)) (out : List (String × ℕ)) :
    alistKeys (doc.foldl (fun out2 p =>
      match alistGet out2 p.1 with
      | some c => alistSet out2 p.1 (c + p.2)
      | none => alistSet out2 p.1 p.2) out) =
    (alistKeys doc).foldl (fun acc2 w => if w ∈ acc2 then acc2 else acc2 ++ [w])
      (alistKeys out) := by
  induction doc generalizing out with
  | nil => rfl
  | cons p ps ih =>
    rw [List.foldl_cons, ih]
    have hkeys : alistKeys (match alistGet out p.1 with
        | some c => alistSet out p.1 (c + p.2)
        | none => alistSet out p.1 p.2) =
        if p.1 ∈ alistKeys out then alistKeys out else alistKeys out ++ [p.1] := by
      cases hg : alistGet out p.1 with
      | none =>
        have hnotmem : p.1 ∉ alistKeys out := (alistGet_eq_none_iff out p.1).mp hg
        rw [if_neg hnotmem, alistSet_of_notMem _ _ _ hnotmem]
        simp [alistKeys]
      | some c =>
        have hmem : p.1 ∈ alistKeys out := by
          by_contra hn
          rw [(alistGet_eq_none_iff out p.1).mpr hn] at hg
          cases hg
        rw [if_pos hmem, alistKeys_set_of_mem _ _ _ hmem]
    rw [hkeys]
    rfl

theorem corpus_fold_keys (docs : List (List (String × ℕ))) (out : List (String × ℕ)) :
    alistKeys (docs.foldl (fun output doc =>
      doc.foldl (fun out2 p =>
        match alistGet out2 p.1 with
        | some c => alistSet out2 p.1 (c + p.2)
        | none => alistSet out2 p.1 p.2) output) out) =
    (docs.flatMap alistKeys).foldl
      (fun acc2 w => if w ∈ acc2 then acc2 else acc2 ++ [w]) (alistKeys out) := by
  induction docs generalizing out with
  | nil => rfl
  | cons d ds ih =>
    rw [List.foldl_cons, ih, List.flatMap_cons,
      List.foldl_append, corpus_inner_fold_keys]

/-- The corpus dictionary's key order is the first-seen order over the
corpus token stream: per-document first-occurrence key lists, concatenated
in document order, deduplicated keeping first occurrences. -/
theorem build_corpus_dict_keys_eq (text : String) :
    alistKeys (build_corpus_dict (build_doc_dicts text)) =
      firstSeenOrder ((pySplitlines text).flatMap pySplit) := by
  rw [build_corpus_dict, corpus_fold_keys]
  rw [show alistKeys ([] : List (String × ℕ)) = [] from rfl]
  rw [build_doc_dicts, List.flatMap_cons]
  rw [show alistKeys ([] : List (String × ℕ)) = [] from rfl, List.nil_append]
  rw [List.flatMap_map]
  have hfun : (fun x => alistKeys (build_doc_dict (pySplit x))) =
      (fun x : String => firstSeenOrder (pySplit x)) :=
    funext fun line => build_doc_dict_keys (pySplit line)
  rw [hfun]
  have main : ∀ (lines : List String) (acc : List String),
      (lines.flatMap (fun x => firstSeenOrder (pySplit x))).foldl
        (fun acc2 w => if w ∈ acc2 then acc2 else acc2 ++ [w]) acc =
      (lines.flatMap pySplit).foldl
        (fun acc2 w => if w ∈ acc2 then acc2 else acc2 ++ [w]) acc := by
    intro lines
    induction lines with
    | nil => intro acc; rfl
    | cons l ls ih =>
      intro acc
      rw [List.flatMap_cons, List.flatMap_cons, List.foldl_append, List.foldl_append,
        fsFold_firstSeenOrder_collapse, ih]
  rw [show firstSeenOrder ((pySplitlines text).flatMap pySplit) =
      ((pySplitlines text).flatMap pySplit).foldl
        (fun acc2 w => if w ∈ acc2 then acc2 else acc2 ++ [w]) [] from rfl]
  exact main (pySplitlines text) []

/-- C8: every term-frequency vector built against the index — for a document
or a query dictionary alike — (a) follows the index's key order dimension by
dimension, holding the target's count there and 0 for absent terms, (b) has
length equal to the vocabulary size, and (c) that key order is exactly the
corpus vocabulary in first-seen order across documents in scan order
(first-occurrence over the concatenated token stream). -/
theorem c8_vector_invariants (text : String) (W : ℕ) (target : List (String × ℕ))
    (hW : 0 < W) :
    build_vector target (mainIndex text W) =
      (alistKeys (mainIndex text W)).map (fun w => (alistGet target w).getD 0) ∧
    (build_vector target (mainIndex text W)).length =
      (alistKeys (build_corpus_dict (build_doc_dicts text))).length ∧
    alistKeys (mainIndex text W) = firstSeenOrder ((pySplitlines text).flatMap pySplit) := by
  refine ⟨build_vector_eq_map _ _, ?_, ?_⟩
  · rw [build_vector_length, mainIndex, build_inverted_index_keys _ _ hW]
  · rw [mainIndex, build_inverted_index_keys _ _ hW, build_corpus_dict_keys_eq]

theorem c8_vector_invariants_witness :
    (build_vector (build_doc_dict (pySplit "c a")) (mainIndex "a b\nb c" 2) =
      (alistKeys (mainIndex "a b\nb c" 2)).map
        (fun w => (alistGet (build_doc_dict (pySplit "c a")) w).getD 0) ∧
    (build_vector (build_doc_dict (pySplit "c a")) (mainIndex "a b\nb c" 2)).length =
      (alistKeys (build_corpus_dict (build_doc_dicts "a b\nb c"))).length ∧
    alistKeys (mainIndex "a b\nb c" 2) =
      firstSeenOrder ((pySplitlines "a b\nb c").flatMap pySplit)) :=
  c8_vector_invariants "a b\nb c" 2 (build_doc_dict (pySplit "c a")) (by decide)

/-! ### The integer angle comparator agrees with the real arccos order -/

theorem cauchy_schwarz_list (v w : List ℕ) :
    dotProduct v w ^ 2 ≤ normSq v * normSq w := by
  induction v generalizing w with
  | nil => simp [dotProduct, normSq]
  | cons x v ih =>
    cases w with
    | nil => simp [dotProduct, normSq]
    | cons y w =>
      have hd := ih w
      rw [dotProduct_cons,
        show normSq (x :: v) = x * x + normSq v from by rw [normSq, dotProduct_cons]; rfl,
        show normSq (y :: w) = y * y + normSq w from by rw [normSq, dotProduct_cons]; rfl]
      zify at hd ⊢
      have hkey : 2 * ((x:ℤ) * y) * dotProduct v w ≤
          (x:ℤ) * x * normSq w + (y:ℤ) * y * normSq v := by
        by_contra hlt
        push_neg at hlt
        have h0 : (0:ℤ) ≤ (x:ℤ) * x * normSq w + (y:ℤ) * y * normSq v := by positivity
        have hsq : ((x:ℤ) * x * normSq w + (y:ℤ) * y * normSq v) ^ 2 <
            (2 * ((x:ℤ) * y) * dotProduct v w) ^ 2 := by
          have hnn : (0:ℤ) ≤ 2 * ((x:ℤ) * y) * dotProduct v w := le_trans h0 (le_of_lt hlt)
          have := mul_self_lt_mul_self h0 hlt
          calc ((x:ℤ) * x * normSq w + (y:ℤ) * y * normSq v) ^ 2
              = ((x:ℤ) * x * normSq w + (y:ℤ) * y * normSq v) *
                ((x:ℤ) * x * normSq w + (y:ℤ) * y * normSq v) := sq ..
            _ < (2 * ((x:ℤ) * y) * dotProduct v w) *
                (2 * ((x:ℤ) * y) * dotProduct v w) := this
            _ = (2 * ((x:ℤ) * y) * dotProduct v w) ^ 2 := (sq ..).symm
        have hub : (2 * ((x:ℤ) * y) * dotProduct v w) ^ 2 ≤
            ((x:ℤ) * x * normSq w + (y:ℤ) * y * normSq v) ^ 2 := by
          have h4 : (2 * ((x:ℤ) * y) * dotProduct v w) ^ 2 =
              4 * ((x:ℤ) * x * ((y:ℤ) * y)) * dotProduct v w ^ 2 := by ring
          have h5 : (0:ℤ) ≤ 4 * ((x:ℤ) * x * ((y:ℤ) * y)) := by positivity
          have h6 : 4 * ((x:ℤ) * x * ((y:ℤ) * y)) * (dotProduct v w:ℤ) ^ 2 ≤
              4 * ((x:ℤ) * x * ((y:ℤ) * y)) * ((normSq v:ℤ) * normSq w) :=
            mul_le_mul_of_nonneg_left hd h5
          rw [h4]
          refine le_trans h6 ?_
          nlinarith [sq_nonneg ((x:ℤ) * x * normSq w - (y:ℤ) * y * normSq v)]
        exact absurd hsq (not_lt.mpr hub)
      nlinarith [hkey, hd]

theorem angleEntry_dotval (docs : List (List (String × ℕ))) (idx : List (String × List ℕ))
    (query : String) (id : ℕ) :
    (angleEntry docs idx query id).dot =
      dotProduct (build_vector (docs.getD id []) idx)
        (build_vector (build_doc_dict (pySplit query)) idx) := rfl

theorem angleEntry_cauchy_schwarz (docs : List (List (String × ℕ)))
    (idx : List (String × List ℕ)) (query : String) (id : ℕ) :
    (angleEntry docs idx query id).dot ^ 2 ≤ (angleEntry docs idx query id).nsp := by
  rw [angleEntry_dotval, angleEntry_nsp]
  exact cauchy_schwarz_list _ _

/-- Faithfulness of the executable comparator: on non-NaN angle values whose
data comes from genuine vectors (`dot² ≤ nsp`, Cauchy-Schwarz), `ltB` holds
exactly when the real angle in degrees is strictly smaller. -/
theorem ltB_iff_degrees_lt (a b : AngleVal) (ha : a.nsp ≠ 0) (hb : b.nsp ≠ 0)
    (hca : a.dot ^ 2 ≤ a.nsp) (hcb : b.dot ^ 2 ≤ b.nsp) :
    (AngleVal.ltB a b = true ↔ AngleVal.degreesVal a < AngleVal.degreesVal b) := by
  have hnaR : (0:ℝ) < (a.nsp : ℝ) := by
    exact_mod_cast Nat.pos_of_ne_zero ha
  have hnbR : (0:ℝ) < (b.nsp : ℝ) := by
    exact_mod_cast Nat.pos_of_ne_zero hb
  have hsa : (0:ℝ) < Real.sqrt (a.nsp : ℝ) := Real.sqrt_pos.mpr hnaR
  have hsb : (0:ℝ) < Real.sqrt (b.nsp : ℝ) := Real.sqrt_pos.mpr hnbR
  have hxmem : ∀ c : AngleVal, c.dot ^ 2 ≤ c.nsp → c.nsp ≠ 0 →
      ((c.dot : ℝ) / Real.sqrt (c.nsp : ℝ)) ∈ Set.Icc (-1 : ℝ) 1 := by
    intro c hc hcn
    have hnR : (0:ℝ) < (c.nsp : ℝ) := by
      exact_mod_cast Nat.pos_of_ne_zero hcn
    have hs : (0:ℝ) < Real.sqrt (c.nsp : ℝ) := Real.sqrt_pos.mpr hnR
    constructor
    · have : (0:ℝ) ≤ (c.dot : ℝ) / Real.sqrt (c.nsp : ℝ) :=
        div_nonneg (by positivity) (le_of_lt hs)
      linarith
    · rw [div_le_one hs]
      have hcast : ((c.dot : ℝ)) ^ 2 ≤ ((c.nsp : ℝ)) := by exact_mod_cast hc
      calc (c.dot : ℝ) = Real.sqrt ((c.dot : ℝ) ^ 2) := by
              rw [Real.sqrt_sq (by positivity)]
        _ ≤ Real.sqrt (c.nsp : ℝ) := Real.sqrt_le_sqrt hcast
  have hdeg : ∀ x y : ℝ, (Real.arccos x * 180 / Real.pi < Real.arccos y * 180 / Real.pi) ↔
      Real.arccos x < Real.arccos y := by
    intro x y
    rw [mul_div_assoc, mul_div_assoc]
    exact mul_lt_mul_right (by positivity)
  rw [AngleVal.degreesVal, AngleVal.degreesVal, hdeg]
  rw [(Real.strictAntiOn_arccos).lt_iff_lt (hxmem a hca ha) (hxmem b hcb hb)]
  have hfrac : (b.dot : ℝ) / Real.sqrt (b.nsp : ℝ) < (a.dot : ℝ) / Real.sqrt (a.nsp : ℝ) ↔
      (b.dot : ℝ) * Real.sqrt (a.nsp : ℝ) < (a.dot : ℝ) * Real.sqrt (b.nsp : ℝ) :=
    div_lt_div_iff hsb hsa
  rw [hfrac]
  have hsq : (b.dot : ℝ) * Real.sqrt (a.nsp : ℝ) < (a.dot : ℝ) * Real.sqrt (b.nsp : ℝ) ↔
      ((b.dot : ℝ) * Real.sqrt (a.nsp : ℝ)) * ((b.dot : ℝ) * Real.sqrt (a.nsp : ℝ)) <
        ((a.dot : ℝ) * Real.sqrt (b.nsp : ℝ)) * ((a.dot : ℝ) * Real.sqrt (b.nsp : ℝ)) :=
    mul_self_lt_mul_self_iff (by positivity) (by positivity)
  rw [hsq]
  have hexp : ∀ (d n : ℕ), ((d : ℝ) * Real.sqrt (n : ℝ)) * ((d : ℝ) * Real.sqrt (n : ℝ)) =
      ((d : ℝ) * d) * (n : ℝ) := by
    intro d n
    have := Real.mul_self_sqrt (by positivity : (0:ℝ) ≤ (n : ℝ))
    calc ((d : ℝ) * Real.sqrt (n : ℝ)) * ((d : ℝ) * Real.sqrt (n : ℝ))
        = ((d : ℝ) * d) * (Real.sqrt (n : ℝ) * Real.sqrt (n : ℝ)) := by ring
      _ = ((d : ℝ) * d) * (n : ℝ) := by rw [this]
  rw [hexp, hexp]
  rw [AngleVal.ltB]
  simp only [AngleVal.isNaN, ha, hb, decide_eq_true_eq, Bool.and_eq_true, Bool.not_eq_true']
  constructor
  · rintro ⟨-, h⟩
    have : ((b.dot ^ 2 * a.nsp : ℕ) : ℝ) < ((a.dot ^ 2 * b.nsp : ℕ) : ℝ) := by
      exact_mod_cast h
    push_cast at this
    nlinarith [this]
  · intro h
    refine ⟨⟨by simp [ha], by simp [hb]⟩, ?_⟩
    have hZ : ((b.dot : ℝ) ^ 2 * a.nsp) < ((a.dot : ℝ) ^ 2 * b.nsp) := by nlinarith [h]
    exact_mod_cast hZ
